import Mathlib

/-!
Verification development for the state-manager core of an EKF-based
visual-inertial estimator (source: `src/ov_msckf/src/state/StateHelper.cpp`).

The embedding is a shallow one over exact rational arithmetic:

* A matrix is a total function `Nat → Nat → ℚ` together with an explicit
  dimension carried separately (Eigen's dynamic matrices carry their size at
  runtime; entries outside the live region are irrelevant and read as `0`
  where the source initializes with `Eigen::MatrixXd::Zero`).
* In-place block writes (`mat.block(r, c, h, w) = src`) become the functional
  update `writeBlock`; in-place block accumulations (`+=`) become `addBlock`.
* `std::exit(EXIT_FAILURE)` (fatal abort) is modelled as `Except.error ()`.
* `triangularView<Eigen::Upper>()` assignment followed by
  `selfadjointView<Eigen::Upper>()` reflection is modelled by `symU`.
* Calls into numeric library routines that are irrational over ℚ are
  modelled by their exact-arithmetic semantics: the Cholesky solve
  `S.llt().solveInPlace / solve` is the exact inverse (Mathlib's `Matrix.inv`,
  which is `0` on singular input), and the square root inside Eigen's
  `JacobiRotation::makeGivens` is an explicit oracle parameter `sq`
  (the branch structure of `makeGivens` is reproduced exactly; the oracle is
  only consulted in the branch where both pivot entries are nonzero).
* `Type` (ov_type) variables are identified by an immutable `key`
  (the surrogate for C++ pointer identity), carry the covariance offset
  `id : Int` (−1 means detached), the minimal dimension `size`, and an opaque
  `value`; the type-specific boxplus `Type::update` is an oracle parameter
  `bp : List ℚ → List ℚ → List ℚ` mapping (value, delta) to the new value.
-/

/-- Matrices as total functions; the live dimension is tracked separately. -/
abbrev Mtx : Type := Nat → Nat → ℚ

/-- Vectors as total functions. -/
abbrev Vec : Type := Nat → ℚ

/-- `ov_type::Type`: an addressable block of the error state.
`key` is the surrogate for pointer identity. -/
structure Var where
  key : Nat
  id : Int
  size : Nat
  value : List ℚ
deriving DecidableEq

/-- The covariance offset of a variable as a `Nat` (callers index
`state->_Cov` with the non-negative `id()`). -/
def Var.nid (v : Var) : Nat := v.id.toNat

/-- `ov_msckf::State`: covariance, ordered variable list and the bookkeeping
maps/fields that the StateHelper operations touch.  Maps are association
lists; `imuPoseId`/`imuPoseVal`/`imuVel` expose the IMU pose sub-variable and
velocity used by `augment_clone`, and `calibDtId` the id of
`_calib_dt_CAMtoIMU`. -/
structure State where
  n : Nat
  Cov : Mtx
  vars : List Var
  clonesIMU : List (ℚ × Nat)
  featuresSLAM : List (Nat × Nat)
  timestamp : ℚ
  imuPoseId : Nat
  imuPoseVal : List ℚ
  imuVel : Vec
  calibDtId : Nat
  doCalibCameraTimeoffset : Bool

/-- Overwrite the `h × w` block of `C` with upper-left corner `(r, c)` by
`src` (local coordinates), i.e. `C.block(r, c, h, w) = src`. -/
def writeBlock (C : Mtx) (r c h w : Nat) (src : Mtx) : Mtx :=
  fun i j =>
    if r ≤ i ∧ i < r + h ∧ c ≤ j ∧ j < c + w then src (i - r) (j - c) else C i j

/-- Accumulate `src` into the `h × w` block of `C` with corner `(r, c)`,
i.e. `C.block(r, c, h, w) += src`. -/
def addBlock (C : Mtx) (r c h w : Nat) (src : Mtx) : Mtx :=
  fun i j =>
    if r ≤ i ∧ i < r + h ∧ c ≤ j ∧ j < c + w then C i j + src (i - r) (j - c) else C i j

/-- `A.selfadjointView<Eigen::Upper>()` as a total matrix: entry `(i, j)`
reads the upper-triangle entry `(min, max)`. -/
def symU (A : Mtx) : Mtx := fun i j => if i ≤ j then A i j else A j i

/-- Total size of an ordered list of variables (`Σ sizes`). -/
def sizeSum (l : List Var) : Nat := (l.map Var.size).sum

/-- The variable at position `k` of an order (default is a dummy). -/
def vAt (l : List Var) (k : Nat) : Var := l.getD k ⟨0, 0, 0, []⟩

/-- Offset of the `k`-th variable inside the stacked small matrix
(the `Phi_id` / `H_id` prefix sums in the source). -/
def offAt (l : List Var) (k : Nat) : Nat := sizeSum (l.take k)

/-- Locate the variable of an order containing stacked row `i`:
returns the variable together with the local offset inside it. -/
def locate : List Var → Nat → Option (Var × Nat)
  | [], _ => none
  | v :: rest, i => if i < v.size then some (v, i) else locate rest (i - v.size)

/-- Locate the (first) variable of an order whose covariance range
`[nid, nid+size)` contains global row `y`; also returns the local offset and
the accumulated stacked offset of that variable. -/
def colocate : List Var → Nat → Nat → Option (Var × Nat × Nat)
  | [], _, _ => none
  | v :: rest, y, acc =>
      if v.nid ≤ y ∧ y < v.nid + v.size then some (v, y - v.nid, acc)
      else colocate rest y (acc + v.size)

/-- Contiguity check of `EKFPropagation` on `order_NEW`:
adjacent variables must satisfy `id + size = next id`. -/
def contiguous : List Var → Bool
  | [] => true
  | [_] => true
  | a :: b :: t => decide (a.id + (a.size : Int) = b.id) && contiguous (b :: t)

/-- The negative-diagonal scan performed after propagation/update
(`diags(i) < 0.0` for some `i`). -/
def negDiag (C : Mtx) (n : Nat) : Bool :=
  (List.range n).any fun i => decide (C i i < 0)

/-- Restriction of a function matrix to a square Mathlib matrix of size `d`. -/
def matOf (d : Nat) (f : Mtx) : Matrix (Fin d) (Fin d) ℚ :=
  Matrix.of fun i j => f i.val j.val

/-- Restriction of a function vector to a Mathlib vector of size `d`. -/
def vecOf (d : Nat) (f : Vec) : Fin d → ℚ := fun i => f i.val

/-- Lift a Mathlib square matrix back to a function matrix (zero outside). -/
def liftMat (d : Nat) (A : Matrix (Fin d) (Fin d) ℚ) : Mtx :=
  fun i j => if h : i < d ∧ j < d then A ⟨i, h.1⟩ ⟨j, h.2⟩ else 0

/-- Computable matrix inverse over ℚ, equal to Mathlib's `Matrix.inv`
(see `invF_eq_inv`): `det⁻¹ • adjugate`, which is `0` on singular input. -/
def invF (d : Nat) (A : Matrix (Fin d) (Fin d) ℚ) : Matrix (Fin d) (Fin d) ℚ :=
  (A.det)⁻¹ • A.adjugate

/-- Exact-arithmetic semantics of solving `S · X = I` (the
`S.llt().solveInPlace` / `S.llt().solve` calls): the matrix inverse,
restricted to dimension `d`.  (The inverse of a singular matrix is `0`.) -/
def solveInv (d : Nat) (S : Mtx) : Mtx := liftMat d (invF d (matOf d S))

/-- Matrix-vector product restricted to width `d`. -/
def mulVecN (d : Nat) (A : Mtx) (x : Vec) : Vec :=
  fun i => ∑ j ∈ Finset.range d, A i j * x j

/-- Dot product of the first `d` entries. -/
def dotN (d : Nat) (x y : Vec) : ℚ := ∑ i ∈ Finset.range d, x i * y i

/-! ## `StateHelper::get_marginal_covariance` (StateHelper.cpp:269-298)

The double loop copies `Cov[a.range, b.range]` blocks into a zero-initialized
`cov_size × cov_size` matrix; the output blocks partition `[0, cov_size)`, so
the loop's denotation is: look up which variables of the order the stacked
coordinates fall in. -/

def get_marginal_covariance (s : State) (small_variables : List Var) : Mtx :=
  fun i j =>
    match locate small_variables i, locate small_variables j with
    | some (a, ra), some (b, rb) => s.Cov (a.nid + ra) (b.nid + rb)
    | _, _ => 0

/-! ## `StateHelper::set_initial_covariance` (StateHelper.cpp:242-267) -/

/-- Inner `k` loop: copy `covariance.block(i_index, k_index, ...)` into
`Cov.block(order[i].id, order[k].id, ...)` for each `k`. -/
def setInner (inp : Mtx) (oi : Var) (ioff : Nat) : List Var → Nat → Mtx → Mtx
  | [], _, C => C
  | okv :: rest, koff, C =>
      setInner inp oi ioff rest (koff + okv.size)
        (writeBlock C oi.nid okv.nid oi.size okv.size
          (fun a b => inp (ioff + a) (koff + b)))

/-- Outer `i` loop of `set_initial_covariance`. -/
def setOuter (inp : Mtx) (order : List Var) : List Var → Nat → Mtx → Mtx
  | [], _, C => C
  | oi :: rest, ioff, C =>
      setOuter inp order rest (ioff + oi.size) (setInner inp oi ioff order 0 C)

/-- `set_initial_covariance`: overwrite the blocks of `Cov` addressed by
`order` with the input `covariance`, then reflect the upper triangle
(`_Cov = _Cov.selfadjointView<Eigen::Upper>()`). -/
def set_initial_covariance (s : State) (covariance : Mtx) (order : List Var) : State :=
  { s with Cov := symU (setOuter covariance order order 0 s.Cov) }

/-! ## `StateHelper::EKFPropagation` (StateHelper.cpp:36-136) -/

/-- `Cov_PhiT`: the block-accumulated `Σ_k Cov[:, old_k.range] · Φ[:, blk_k]ᵀ`. -/
def covPhiT (C Phi : Mtx) (olds : List Var) : Mtx := fun i j =>
  ∑ k ∈ Finset.range olds.length, ∑ c ∈ Finset.range (vAt olds k).size,
    C i ((vAt olds k).nid + c) * Phi j (offAt olds k + c)

/-- `Phi_Cov_PhiT = Q.selfadjointView<Upper> + Σ_k Φ[:, blk_k] · Cov_PhiT[old_k.range, :]`. -/
def phiCovPhiT (C Phi Q : Mtx) (olds : List Var) : Mtx := fun i j =>
  symU Q i j + ∑ k ∈ Finset.range olds.length, ∑ c ∈ Finset.range (vAt olds k).size,
    Phi i (offAt olds k + c) * covPhiT C Phi olds ((vAt olds k).nid + c) j

/-- The three-block write-back of `EKFPropagation` (rows, columns, then the
diagonal block, with `start_id = order_NEW[0].id` and
`phi_size = Phi.rows()`). -/
def propCov (s : State) (orderNEW orderOLD : List Var) (Phi Q : Mtx) : Mtx :=
  writeBlock
    (writeBlock
      (writeBlock s.Cov (vAt orderNEW 0).nid 0 (sizeSum orderNEW) s.n
        (fun r j => covPhiT s.Cov Phi orderOLD j r))
      0 (vAt orderNEW 0).nid s.n (sizeSum orderNEW) (covPhiT s.Cov Phi orderOLD))
    (vAt orderNEW 0).nid (vAt orderNEW 0).nid (sizeSum orderNEW) (sizeSum orderNEW)
    (phiCovPhiT s.Cov Phi Q orderOLD)

/-- `EKFPropagation`.  Fatal aborts: empty orders, non-contiguous `order_NEW`,
and a negative diagonal entry after the write-back.  The dimension `assert`s
relate `Phi.rows()`/`Q` to the order sizes; accordingly the embedding uses
`sizeSum order_NEW` for `Phi.rows()`. -/
def EKFPropagation (s : State) (orderNEW orderOLD : List Var) (Phi Q : Mtx) :
    Except Unit State :=
  if orderNEW.isEmpty || orderOLD.isEmpty then .error ()
  else if !(contiguous orderNEW) then .error ()
  else if negDiag (propCov s orderNEW orderOLD Phi Q) s.n then .error ()
  else .ok { s with Cov := propCov s orderNEW orderOLD Phi Q }

/-! ## `StateHelper::EKFUpdate` (StateHelper.cpp:138-240) -/

/-- Does some state variable's covariance range cover row `i`?
(`M_a` keeps its zero initialization on rows no variable covers.) -/
def covered (l : List Var) (i : Nat) : Bool :=
  l.any fun v => decide (v.nid ≤ i ∧ i < v.nid + v.size)

/-- Row value written into `M_a` by the per-variable loop: for a row `i`
inside variable `v`, `M_i(i - v.id, j) = Σ_k Σ_c Cov(i, meas_k.id + c) ·
H(j, H_id_k + c)` — independent of `v` beyond the row index, so the final
`M_a` row equals this for every covered row. -/
def mAll (C H : Mtx) (hOrder : List Var) : Mtx := fun i j =>
  ∑ k ∈ Finset.range hOrder.length, ∑ c ∈ Finset.range (vAt hOrder k).size,
    C i ((vAt hOrder k).nid + c) * H j (offAt hOrder k + c)

/-- `M_a = Cov · Hᵀ` assembled block-sparsely over the state variables. -/
def mA (s : State) (hOrder : List Var) (H : Mtx) : Mtx :=
  fun i j => if covered s.vars i then mAll s.Cov H hOrder i j else 0

/-- `H · P · Hᵀ` with stacked width `w`. -/
def hPHt (H P : Mtx) (w : Nat) : Mtx := fun i j =>
  ∑ a ∈ Finset.range w, ∑ b ∈ Finset.range w, H i a * P a b * H j b

/-- The residual covariance `S = H · P_small · Hᵀ + R` of `EKFUpdate`
(written into the upper triangle and consumed through
`selfadjointView<Upper>`). -/
def sFun (s : State) (hOrder : List Var) (H R : Mtx) : Mtx :=
  fun i j => hPHt H (get_marginal_covariance s hOrder) (sizeSum hOrder) i j + R i j

/-- Kalman gain `K = M_a · Sinv.selfadjointView<Upper>()`. -/
def kGain (d : Nat) (Ma Sinv : Mtx) : Mtx := fun i j =>
  ∑ a ∈ Finset.range d, Ma i a * symU Sinv a j

/-- The Kalman gain of `EKFUpdate` on a given state. -/
def updK (s : State) (hOrder : List Var) (H R : Mtx) (d : Nat) : Mtx :=
  kGain d (mA s hOrder H) (solveInv d (symU (sFun s hOrder H R)))

/-- The covariance after `EKFUpdate`'s `triangularView<Upper>() -= K·M_aᵀ`
followed by the `selfadjointView<Upper>` reflection. -/
def updCov (s : State) (hOrder : List Var) (H R : Mtx) (d : Nat) : Mtx :=
  symU (fun i j => s.Cov i j -
    ∑ a ∈ Finset.range d, updK s hOrder H R d i a * mA s hOrder H j a)

/-- The correction `dx = K · res`. -/
def updDx (s : State) (hOrder : List Var) (H R : Mtx) (res : Vec) (d : Nat) : Vec :=
  fun i => ∑ a ∈ Finset.range d, updK s hOrder H R d i a * res a

/-- `EKFUpdate`.  `d` is `res.rows()` (equal to `R.rows()` and `H.rows()` by
the asserts).  Fatal abort: a negative diagonal entry after the covariance
write.  The covariance is updated on the upper triangle and reflected; the
boxplus `v->update(dx.block(v.id, 0, v.size, 1))` is the oracle `bp`.
(The `do_calib_camera_intrinsics` mirroring of already-updated values into
camera objects touches no modelled field.) -/
def EKFUpdate (bp : List ℚ → List ℚ → List ℚ) (s : State) (hOrder : List Var)
    (H : Mtx) (res : Vec) (R : Mtx) (d : Nat) : Except Unit State :=
  if negDiag (updCov s hOrder H R d) s.n then .error ()
  else
    .ok { s with
          Cov := updCov s hOrder H R d,
          vars := s.vars.map fun v =>
            { v with value := bp v.value ((List.range v.size).map fun r =>
                updDx s hOrder H R res d (v.nid + r)) } }

/-! ## `StateHelper::marginalize` (StateHelper.cpp:321-392) -/

/-- The four block writes building `Cov_new` (side `a + b`, where
`a = marg_id`, `b = N - marg_id - marg_size`): `P(x1,x1)` and `P(x2,x2)` are
copied, `P(x1,x2)` is copied from columns shifted by `marg_size`, and
`P(x2,x1)` is the transpose of the freshly written `P(x1,x2)` block.
Entries outside `[0, a+b)²` are dead (the Eigen temporary is sized
exactly); they read as `0` here. -/
def margCovNew (C : Mtx) (a sz b : Nat) : Mtx := fun i j =>
  if i < a ∧ j < a then C i j
  else if i < a ∧ a ≤ j ∧ j < a + b then C i (j + sz)
  else if a ≤ i ∧ i < a + b ∧ j < a then C j (i + sz)
  else if a ≤ i ∧ i < a + b ∧ a ≤ j ∧ j < a + b then C (i + sz) (j + sz)
  else 0

/-- `marginalize`.  Fatal abort when the variable is not a top-level entry of
`variables` (`std::find` by pointer identity, here by `key`).  Besides the
new state it returns the marginalized variable with `id = -1`
(`marg->set_local_id(-1)` mutates the shared object held by the caller). -/
def marginalize (s : State) (margKey : Nat) : Except Unit (State × Var) :=
  match s.vars.find? (fun v => v.key = margKey) with
  | none => .error ()
  | some marg =>
      let a := marg.nid
      let sz := marg.size
      let remaining := (s.vars.filter (fun v => ¬ v.key = margKey)).map fun v =>
        if marg.id < v.id then { v with id := v.id - (sz : Int) } else v
      .ok ({ s with n := s.n - sz,
                    Cov := margCovNew s.Cov a sz (s.n - a - sz),
                    vars := remaining },
           { marg with id := -1 })

/-! ## `StateHelper::clone` (StateHelper.cpp:394-448) -/

/-- Core of `clone` once the source variable has been located at covariance
offset `oldLoc` with size `totalSize`: `conservativeResizeLike(Zero(...))`
(grow, zero-fill), copy the diagonal block and the two stripes, and append a
fresh variable of the same value at `new_loc = old N`. -/
def cloneAt (s : State) (oldLoc totalSize : Nat) (cloneVal : List ℚ) (newKey : Nat) :
    State × Var :=
  let oldSize := s.n
  let newLoc := s.n
  let C0 : Mtx := fun i j => if i < oldSize + totalSize ∧ j < oldSize + totalSize
      then (if i < oldSize ∧ j < oldSize then s.Cov i j else 0) else 0
  let C1 := writeBlock C0 newLoc newLoc totalSize totalSize
              (fun r c => C0 (oldLoc + r) (oldLoc + c))
  let C2 := writeBlock C1 0 newLoc oldSize totalSize (fun i c => C1 i (oldLoc + c))
  let C3 := writeBlock C2 newLoc 0 totalSize oldSize (fun r j => C2 (oldLoc + r) j)
  let newClone : Var := { key := newKey, id := (newLoc : Int), size := totalSize,
                          value := cloneVal }
  ({ s with n := oldSize + totalSize, Cov := C3, vars := s.vars ++ [newClone] },
   newClone)

/-- `clone`: locate the variable to clone, then `cloneAt`.  The source also
accepts sub-variables via `check_if_subvariable`; in both cases the location
and size used are those of the located variable itself (`type_check`), which
for a top-level variable is the variable found by `key` here.  Fatal abort if
the variable cannot be located. -/
def clone (s : State) (vkey : Nat) (newKey : Nat) : Except Unit (State × Var) :=
  match s.vars.find? (fun v => v.key = vkey) with
  | none => .error ()
  | some v => .ok (cloneAt s v.nid v.size v.value newKey)

/-! ## `StateHelper::augment_clone` (StateHelper.cpp:636-683) -/

/-- `augment_clone`: refuse a duplicate timestamp, clone the IMU pose
(a sub-variable of the IMU block, exposed here through `imuPoseId` /
`imuPoseVal`), register the clone by timestamp, and under
`do_calib_camera_timeoffset` apply the two sequential `+=` stripe updates
with the 6×1 Jacobian `[last_w; imu.vel]` against the time-offset column/row.
(The `dynamic_pointer_cast<PoseJPL>` always succeeds for the IMU pose and is
not modelled.) -/
def augment_clone (s : State) (lastW : Vec) (newKey : Nat) : Except Unit State :=
  if s.clonesIMU.any (fun p => p.1 = s.timestamp) then .error ()
  else
    let sp := cloneAt s s.imuPoseId 6 s.imuPoseVal newKey
    let s1 := sp.1
    let pose := sp.2
    let s2 := { s1 with clonesIMU := (s.timestamp, pose.key) :: s1.clonesIMU }
    if s.doCalibCameraTimeoffset then
      let dnc : Vec := fun i => if i < 3 then lastW i
                                else if i < 6 then s.imuVel (i - 3) else 0
      let C1 := addBlock s2.Cov 0 pose.nid s2.n 6
                  (fun i c => s2.Cov i s.calibDtId * dnc c)
      let C2 := addBlock C1 pose.nid 0 6 s2.n
                  (fun r j => dnc r * C1 s.calibDtId j)
      .ok { s2 with Cov := C2 }
    else .ok s2

/-! ## Givens QR of `StateHelper::initialize` (StateHelper.cpp:486-498) -/

/-- Eigen's `JacobiRotation::makeGivens(p, q)` for real scalars: produces
`(c, s)` with `c = p/r`, `s = -q/r`, `r = √(p² + q²)`, handling the `q = 0`
and `p = 0` branches exactly as Eigen does; the square root in the general
branch is the oracle `sq`. -/
def makeGivens (sq : ℚ → ℚ) (p q : ℚ) : ℚ × ℚ :=
  if q = 0 then (if p < 0 then -1 else 1, 0)
  else if p = 0 then (0, if q < 0 then 1 else -1)
  else
    let r := sq (p * p + q * q)
    (p / r, -(q / r))

/-- `applyOnTheLeft(0, 1, G.adjoint())` on rows `(r, r+1)` of a matrix,
restricted to columns `≥ colStart` (the source applies `H_L` only on the
nonzero columns `n..`): row `r ← c·row r − s·row (r+1)`,
row `r+1 ← s·row r + c·row (r+1)`. -/
def rotRowsM (c s : ℚ) (r colStart : Nat) (M : Mtx) : Mtx := fun i j =>
  if j < colStart then M i j
  else if i = r then c * M r j - s * M (r + 1) j
  else if i = r + 1 then s * M r j + c * M (r + 1) j
  else M i j

/-- The same rotation applied to a column vector (`res`). -/
def rotRowsV (c s : ℚ) (r : Nat) (v : Vec) : Vec := fun i =>
  if i = r then c * v r - s * v (r + 1)
  else if i = r + 1 then s * v r + c * v (r + 1)
  else v i

/-- One Givens elimination step at column `n`, row `m` (zeroing `H_L(m, n)`
against the pivot `H_L(m-1, n)`); applied to `H_L` (columns `n..`), `H_R`
(all columns) and `res`, all reading the pre-step `H_L` for the rotation. -/
def qrStep (sq : ℚ → ℚ) (n m : Nat) : Mtx × Mtx × Vec → Mtx × Mtx × Vec :=
  fun t =>
    let cs := makeGivens sq (t.1 (m - 1) n) (t.1 m n)
    (rotRowsM cs.1 cs.2 (m - 1) n t.1,
     rotRowsM cs.1 cs.2 (m - 1) 0 t.2.1,
     rotRowsV cs.1 cs.2 (m - 1) t.2.2)

/-- The double Givens loop: `for n in [0, cols)`, `for m from rows-1 down to
n+1`. -/
def qrFold (sq : ℚ → ℚ) (rows cols : Nat) (t : Mtx × Mtx × Vec) : Mtx × Mtx × Vec :=
  (List.range cols).foldl
    (fun t n =>
      ((List.range (rows - 1 - n)).map fun k => rows - 1 - k).foldl
        (fun t m => qrStep sq n m t) t)
    t

/-- The in-place Givens QR of `initialize`, as a function of the incoming
`(H_L, H_R, res)` (the caller's matrices are mutated to exactly this). -/
def qrRot (sq : ℚ → ℚ) (H_L H_R : Mtx) (res : Vec) (rows cols : Nat) :
    Mtx × Mtx × Vec :=
  qrFold sq rows cols (H_L, H_R, res)

/-! ## `StateHelper::initialize_invertible` (StateHelper.cpp:541-634) -/

/-- The isotropy check of both initializers: every diagonal entry of `R`
equals `R(0,0)` and every off-diagonal entry is zero. -/
def isotropicB (R : Mtx) (d : Nat) : Bool :=
  decide ((∀ r < d, R r r = R 0 0) ∧ ∀ r < d, ∀ c < d, r ≠ c → R r c = 0)

/-- `initialize_invertible`.  Fatal aborts: `new_variable` already in the
state (by identity), or non-isotropic `R`.  `d = new_variable.size`
(`= H_L.rows() = H_L.cols() = res.rows() = R.rows()` by the asserts).
`M = H_R·P_small·H_Rᵀ + R` is written on the upper triangle and consumed
through `selfadjointView<Upper>`; `H_L.inverse()` is the exact inverse. -/
def initialize_invertible (bp : List ℚ → List ℚ → List ℚ) (s : State) (newVar : Var)
    (hOrder : List Var) (H_R H_L R : Mtx) (res : Vec) : Except Unit State :=
  if s.vars.any (fun v => v.key = newVar.key) then .error ()
  else if !(isotropicB R newVar.size) then .error ()
  else
    let d := newVar.size
    let Ma := mA s hOrder H_R
    let M := sFun s hOrder H_R R
    let HLinv := liftMat d (invF d (matOf d H_L))
    let PLL : Mtx := fun i j =>
      ∑ a ∈ Finset.range d, ∑ b ∈ Finset.range d, HLinv i a * symU M a b * HLinv j b
    let oldSize := s.n
    let C0 : Mtx := fun i j => if i < oldSize + d ∧ j < oldSize + d
        then (if i < oldSize ∧ j < oldSize then s.Cov i j else 0) else 0
    let C1 := writeBlock C0 0 oldSize oldSize d
                (fun i c => -(∑ a ∈ Finset.range d, Ma i a * HLinv c a))
    let C2 := writeBlock C1 oldSize 0 d oldSize (fun r j => C1 j (oldSize + r))
    let C3 := writeBlock C2 oldSize oldSize d d PLL
    let newValue := bp newVar.value
        ((List.range d).map fun i => ∑ a ∈ Finset.range d, HLinv i a * res a)
    .ok { s with
          n := oldSize + d,
          Cov := C3,
          vars := s.vars ++ [{ newVar with id := (oldSize : Int), value := newValue }] }

/-! ## `StateHelper::initialize` (StateHelper.cpp:450-539) -/

/-- Result of `initialize`: the returned `Bool`, the state, and the final
values of the caller's `H_R`, `H_L`, `res` (mutated in place by the Givens
rotations). -/
structure InitResult where
  ok : Bool
  state : State
  hR : Mtx
  hL : Mtx
  resv : Vec

/-- The Mahalanobis statistic of `initialize`: with the rotated system split
at `k = new_variable.size`, `χ² = res_upᵀ · S⁻¹ · res_up` where
`S = H_up · P_up · H_upᵀ + R_up`. -/
def initChi2 (sq : ℚ → ℚ) (s : State) (hOrder : List Var) (H_R H_L R : Mtx)
    (res : Vec) (rows k : Nat) : ℚ :=
  let qr := qrRot sq H_L H_R res rows k
  let Hup : Mtx := fun i j => qr.2.1 (k + i) j
  let resup : Vec := fun i => qr.2.2 (k + i)
  let Rup : Mtx := fun i j => R (k + i) (k + j)
  let S : Mtx := fun i j =>
    hPHt Hup (get_marginal_covariance s hOrder) (sizeSum hOrder) i j + Rup i j
  dotN (rows - k) resup (mulVecN (rows - k) (solveInv (rows - k) S) resup)

/-- `StateHelper::initialize` (delayed initialization; the C++ name is a
reserved word in Lean).  `rows = res.rows()`; `chiq` is the oracle for
boost's 0.95 chi-squared quantile at integer dof.  Fatal aborts: the two
entry checks (shared with `initialize_invertible`) and any abort of the
nested `initialize_invertible` / `EKFUpdate` calls.  On gate rejection it
returns `false` with the state untouched but `H_R`, `H_L`, `res` already
rotated. -/
def initializeDelayed (sq : ℚ → ℚ) (bp : List ℚ → List ℚ → List ℚ) (chiq : Nat → ℚ)
    (s : State) (newVar : Var) (hOrder : List Var) (H_R H_L R : Mtx) (res : Vec)
    (rows : Nat) (chi2mult : ℚ) : Except Unit InitResult :=
  if s.vars.any (fun v => v.key = newVar.key) then .error ()
  else if !(isotropicB R rows) then .error ()
  else
    let k := newVar.size
    let qr := qrRot sq H_L H_R res rows k
    let HL := qr.1
    let HR := qr.2.1
    let rv := qr.2.2
    let Hup : Mtx := fun i j => HR (k + i) j
    let resup : Vec := fun i => rv (k + i)
    let Rup : Mtx := fun i j => R (k + i) (k + j)
    let chi2 := initChi2 sq s hOrder H_R H_L R res rows k
    if chi2mult * chiq rows < chi2 then
      .ok { ok := false, state := s, hR := HR, hL := HL, resv := rv }
    else
      match initialize_invertible bp s newVar hOrder HR HL R rv with
      | .error _ => .error ()
      | .ok s1 =>
          if 0 < rows - k then
            match EKFUpdate bp s1 hOrder Hup resup Rup (rows - k) with
            | .error _ => .error ()
            | .ok s2 => .ok { ok := true, state := s2, hR := HR, hL := HL, resv := rv }
          else .ok { ok := true, state := s1, hR := HR, hL := HL, resv := rv }

/-! ## Specification predicates -/

/-- Symmetry of the live `n × n` region. -/
def SymmUpTo (n : Nat) (C : Mtx) : Prop := ∀ i < n, ∀ j < n, C i j = C j i

/-- Entrywise equality on the live `n × n` region. -/
def CovEqUpTo (n : Nat) (C D : Mtx) : Prop := ∀ i < n, ∀ j < n, C i j = D i j

/-- Quadratic form `xᵀ A x` over the leading `d × d` region. -/
def qform (A : Mtx) (d : Nat) (x : Vec) : ℚ :=
  ∑ i ∈ Finset.range d, ∑ j ∈ Finset.range d, x i * A i j * x j

/-- Positive semidefiniteness of the leading `d × d` region
(symmetric and with nonnegative quadratic form). -/
def PSDUpTo (A : Mtx) (d : Nat) : Prop :=
  SymmUpTo d A ∧ ∀ x : Vec, 0 ≤ qform A d x

/-- All variables of a list are attached (`id ≥ 0`) with ranges inside
`[0, n)`. -/
def InBounds (l : List Var) (n : Nat) : Prop :=
  ∀ v ∈ l, 0 ≤ v.id ∧ v.nid + v.size ≤ n

/-- Trace of the live covariance. -/
def covTrace (s : State) : ℚ := ∑ i ∈ Finset.range s.n, s.Cov i i

instance (n : Nat) (C : Mtx) : Decidable (SymmUpTo n C) :=
  decidable_of_iff (∀ i < n, ∀ j < n, C i j = C j i) Iff.rfl

instance (n : Nat) (C D : Mtx) : Decidable (CovEqUpTo n C D) :=
  decidable_of_iff (∀ i < n, ∀ j < n, C i j = D i j) Iff.rfl

instance (l : List Var) (n : Nat) : Decidable (InBounds l n) :=
  decidable_of_iff (∀ v ∈ l, 0 ≤ v.id ∧ v.nid + v.size ≤ n) Iff.rfl

/-- `Except` success as a Bool (for closed statements about abort
behaviour). -/
def isOkE {α : Type} : Except Unit α → Bool
  | .ok _ => true
  | .error _ => false

/-! ## Basic lemmas -/

theorem symU_apply_le (A : Mtx) {i j : Nat} (h : i ≤ j) : symU A i j = A i j := by
  simp [symU, h]

theorem symU_symm (A : Mtx) (i j : Nat) : symU A i j = symU A j i := by
  unfold symU
  rcases Nat.le_total i j with h | h
  · rcases Nat.eq_or_lt_of_le h with rfl | hlt
    · simp
    · simp [h, Nat.not_le.mpr hlt]
  · rcases Nat.eq_or_lt_of_le h with rfl | hlt
    · simp
    · simp [h, Nat.not_le.mpr hlt]

theorem symU_symmUpTo (A : Mtx) (n : Nat) : SymmUpTo n (symU A) := by
  intro i _ j _
  exact symU_symm A i j

theorem writeBlock_in (C : Mtx) (r c h w : Nat) (src : Mtx) {i j : Nat}
    (hi : r ≤ i ∧ i < r + h) (hj : c ≤ j ∧ j < c + w) :
    writeBlock C r c h w src i j = src (i - r) (j - c) := by
  simp [writeBlock, hi.1, hi.2, hj.1, hj.2]

theorem writeBlock_out (C : Mtx) (r c h w : Nat) (src : Mtx) {i j : Nat}
    (hout : ¬(r ≤ i ∧ i < r + h ∧ c ≤ j ∧ j < c + w)) :
    writeBlock C r c h w src i j = C i j := by
  simp only [writeBlock]
  rw [if_neg]
  intro hc
  exact hout hc

theorem addBlock_in (C : Mtx) (r c h w : Nat) (src : Mtx) {i j : Nat}
    (hi : r ≤ i ∧ i < r + h) (hj : c ≤ j ∧ j < c + w) :
    addBlock C r c h w src i j = C i j + src (i - r) (j - c) := by
  simp [addBlock, hi.1, hi.2, hj.1, hj.2]

theorem addBlock_out (C : Mtx) (r c h w : Nat) (src : Mtx) {i j : Nat}
    (hout : ¬(r ≤ i ∧ i < r + h ∧ c ≤ j ∧ j < c + w)) :
    addBlock C r c h w src i j = C i j := by
  simp only [addBlock]
  rw [if_neg]
  intro hc
  exact hout hc

theorem sizeSum_nil : sizeSum [] = 0 := rfl

theorem sizeSum_cons (v : Var) (l : List Var) :
    sizeSum (v :: l) = v.size + sizeSum l := by
  simp [sizeSum]

theorem vAt_cons_zero (v : Var) (l : List Var) : vAt (v :: l) 0 = v := rfl

theorem vAt_cons_succ (v : Var) (l : List Var) (k : Nat) :
    vAt (v :: l) (k + 1) = vAt l k := rfl

theorem offAt_zero (l : List Var) : offAt l 0 = 0 := rfl

theorem offAt_cons_succ (v : Var) (l : List Var) (k : Nat) :
    offAt (v :: l) (k + 1) = v.size + offAt l k := by
  simp [offAt, sizeSum]

theorem locate_mem {l : List Var} {j : Nat} {v : Var} {c : Nat}
    (h : locate l j = some (v, c)) : v ∈ l ∧ c < v.size := by
  induction l generalizing j with
  | nil => simp [locate] at h
  | cons a t ih =>
      by_cases hj : j < a.size
      · simp [locate, hj] at h
        exact ⟨by simp [h.1.symm], h.1 ▸ h.2 ▸ hj⟩
      · simp [locate, hj] at h
        rcases ih h with ⟨hm, hc⟩
        exact ⟨List.mem_cons_of_mem _ hm, hc⟩

theorem locate_isSome {l : List Var} {j : Nat} (h : j < sizeSum l) :
    ∃ v c, locate l j = some (v, c) := by
  induction l generalizing j with
  | nil => simp [sizeSum_nil] at h
  | cons a t ih =>
      by_cases hj : j < a.size
      · exact ⟨a, j, by simp [locate, hj]⟩
      · rw [sizeSum_cons] at h
        have : j - a.size < sizeSum t := by omega
        rcases ih this with ⟨v, c, hv⟩
        exact ⟨v, c, by simp [locate, hj, hv]⟩

/-- Success state of an `Except`-returning operation (default on abort). -/
def okState (r : Except Unit State) (d : State) : State :=
  match r with
  | .ok s' => s'
  | .error _ => d

/-- Success state of an operation returning a state/variable pair. -/
def okPairState (r : Except Unit (State × Var)) (d : State) : State :=
  match r with
  | .ok p => p.1
  | .error _ => d

/-- Success variable of an operation returning a state/variable pair. -/
def okPairVar (r : Except Unit (State × Var)) : Var :=
  match r with
  | .ok p => p.2
  | .error _ => ⟨0, 0, 0, []⟩

/-! ## Claim C10: entry checks of `initialize_invertible` -/

/-- C10: `initialize_invertible` aborts fatally (`std::exit`) when the new
variable is already present in the state or when the measurement noise `R`
is not isotropic diagonal (some diagonal entry differs from `R(0,0)`, or
some off-diagonal entry is nonzero); these checks are performed before any
state mutation (StateHelper.cpp:545-568), mirroring the ones of the delayed
`initialize`. -/
theorem claim10_invertible_entry_checks (bp : List ℚ → List ℚ → List ℚ)
    (s : State) (newVar : Var) (hOrder : List Var) (H_R H_L R : Mtx) (res : Vec)
    (h : s.vars.any (fun v => v.key = newVar.key) = true ∨
         isotropicB R newVar.size = false) :
    initialize_invertible bp s newVar hOrder H_R H_L R res = .error () := by
  unfold initialize_invertible
  rcases h with h | h
  · simp [h]
  · by_cases hp : s.vars.any (fun v => v.key = newVar.key) = true
    · simp [hp]
    · simp [hp, h]

/-- Witness for C10: a concrete non-isotropic `R` (off-diagonal entry `1`)
makes `initialize_invertible` abort. -/
theorem claim10_witness :
    (isotropicB (fun i j => if i = j then 1 else 1) 2 = false ∨ False) ∧
    initialize_invertible (fun v _ => v)
      { n := 1, Cov := fun _ _ => 1, vars := [⟨0, 0, 1, [0]⟩], clonesIMU := [],
        featuresSLAM := [], timestamp := 0, imuPoseId := 0, imuPoseVal := [],
        imuVel := fun _ => 0, calibDtId := 0, doCalibCameraTimeoffset := false }
      ⟨1, -1, 2, [0, 0]⟩ [⟨0, 0, 1, [0]⟩] (fun _ _ => 1) (fun _ _ => 1)
      (fun i j => if i = j then 1 else 1) (fun _ => 0) = .error () := by
  constructor
  · left
    decide
  · exact claim10_invertible_entry_checks (fun v _ => v) _ _ _ _ _ _ _
      (Or.inr (by decide))

/-- Projection of an `initialize` result (default on abort). -/
def okInit (r : Except Unit InitResult) (d : InitResult) : InitResult :=
  match r with
  | .ok x => x
  | .error _ => d

/-- 1×1 instance of the exact solve: the scalar reciprocal. -/
theorem solveInv_one (S : Mtx) : solveInv 1 S 0 0 = (S 0 0)⁻¹ := by
  simp [solveInv, liftMat, invF, matOf, Matrix.det_fin_one, Matrix.adjugate_fin_one]

/-! ## Claim C2: Mahalanobis gate rejection leaves the state unchanged -/

/-- C2: whenever the Mahalanobis statistic exceeds `chi_2_mult` times the
chi-squared quantile at dof `res.rows()`, `initialize` returns `false` with
the `State` component exactly the input state (covariance, variable list,
clone map and SLAM-feature map all unchanged; the new variable is not
added); only the caller's `H_R`/`H_L`/`res` carry the Givens rotations
(StateHelper.cpp:515-527). -/
theorem claim2_gate_rejection_no_state_change
    (sq : ℚ → ℚ) (bp : List ℚ → List ℚ → List ℚ) (chiq : Nat → ℚ) (s : State)
    (newVar : Var) (hOrder : List Var) (H_R H_L R : Mtx) (res : Vec)
    (rows : Nat) (chi2mult : ℚ)
    (hpres : s.vars.any (fun v => v.key = newVar.key) = false)
    (hiso : isotropicB R rows = true)
    (hgate : chi2mult * chiq rows <
      initChi2 sq s hOrder H_R H_L R res rows newVar.size) :
    initializeDelayed sq bp chiq s newVar hOrder H_R H_L R res rows chi2mult
      = .ok { ok := false, state := s,
              hR := (qrRot sq H_L H_R res rows newVar.size).2.1,
              hL := (qrRot sq H_L H_R res rows newVar.size).1,
              resv := (qrRot sq H_L H_R res rows newVar.size).2.2 } := by
  unfold initializeDelayed
  simp [hpres, hiso, hgate]

/-! Concrete inputs used by the gate-path witnesses: a one-dimensional state,
a two-row measurement whose `H_L` has the pivot pattern `(0, 1)` (so the
Givens rotation is the exact row swap-and-negate), and isotropic `R = I`. -/

def exVar0 : Var := ⟨0, 0, 1, [0]⟩

def exNew : Var := ⟨1, -1, 1, [0]⟩

def exState : State :=
  { n := 1, Cov := fun _ _ => 1, vars := [exVar0], clonesIMU := [],
    featuresSLAM := [], timestamp := 0, imuPoseId := 0, imuPoseVal := [],
    imuVel := fun _ => 0, calibDtId := 0, doCalibCameraTimeoffset := false }

def exHL : Mtx := fun i j => if i = 1 ∧ j = 0 then 1 else 0

def exHR : Mtx := fun i j =>
  if i = 0 ∧ j = 0 then 2 else if i = 1 ∧ j = 0 then 3 else 0

def exRes : Vec := fun i => if i = 0 then 5 else if i = 1 then 7 else 0

def exR : Mtx := fun i j => if i = j then 1 else 0

/-- The Mahalanobis statistic of the concrete gate-path example evaluates to
`5` (rotated residual `-5`, rotated `H_up = -2`, `S = 4 + 1`). -/
theorem exChi2_val :
    initChi2 (fun _ => 0) exState [exVar0] exHR exHL exR exRes 2 1 = 5 := by
  simp only [initChi2]
  norm_num [dotN, mulVecN, Finset.sum_range_one, solveInv_one, hPHt,
    get_marginal_covariance, locate, sizeSum, vAt, offAt, Var.nid, exState,
    exVar0, qrRot, qrFold, qrStep, makeGivens, rotRowsM, rotRowsV, exHL, exHR,
    exRes, exR, List.range_succ]

/-- Witness for C2: on the concrete example with `chi_2_mult = 1/2` and
quantile oracle `5.99` (the 0.95 quantile at dof 2), the gate rejects and
the state comes back unchanged. -/
theorem claim2_witness :
    ((1 : ℚ)/2 * (599/100) <
        initChi2 (fun _ => 0) exState [exVar0] exHR exHL exR exRes 2 1) ∧
    initializeDelayed (fun _ => 0) (fun v _ => v) (fun _ => 599/100) exState exNew
        [exVar0] exHR exHL exR exRes 2 (1/2)
      = .ok { ok := false, state := exState,
              hR := (qrRot (fun _ => 0) exHL exHR exRes 2 exNew.size).2.1,
              hL := (qrRot (fun _ => 0) exHL exHR exRes 2 exNew.size).1,
              resv := (qrRot (fun _ => 0) exHL exHR exRes 2 exNew.size).2.2 } := by
  have hgate : (1 : ℚ)/2 * (599/100) <
      initChi2 (fun _ => 0) exState [exVar0] exHR exHL exR exRes 2 exNew.size := by
    have : exNew.size = 1 := rfl
    rw [this, exChi2_val]
    norm_num
  refine ⟨by (have h1 : exNew.size = 1 := rfl); exact h1 ▸ hgate, ?_⟩
  exact claim2_gate_rejection_no_state_change (fun _ => 0) (fun v _ => v)
    (fun _ => 599/100) exState exNew [exVar0] exHR exHL exR exRes 2 (1/2)
    (by decide) (by decide) hgate

/-! ## Claim C9: the Givens mutation of `H_R`, `H_L`, `res` persists on
gate rejection -/

/-- C9: `initialize` applies the Givens rotations to its `H_R`, `H_L`, `res`
arguments in place (they are non-const references, StateHelper.cpp:450-452,
486-498); when the Mahalanobis gate rejects, the function returns `false`
with the `State` untouched but the caller's Jacobians and residual left in
their rotated (not restored) form. -/
theorem claim9_mutation_persists
    (sq : ℚ → ℚ) (bp : List ℚ → List ℚ → List ℚ) (chiq : Nat → ℚ) (s : State)
    (newVar : Var) (hOrder : List Var) (H_R H_L R : Mtx) (res : Vec)
    (rows : Nat) (chi2mult : ℚ)
    (hpres : s.vars.any (fun v => v.key = newVar.key) = false)
    (hiso : isotropicB R rows = true)
    (hgate : chi2mult * chiq rows <
      initChi2 sq s hOrder H_R H_L R res rows newVar.size) :
    ∀ r, initializeDelayed sq bp chiq s newVar hOrder H_R H_L R res rows chi2mult
        = .ok r →
      r.ok = false ∧ r.state = s ∧
      r.hL = (qrRot sq H_L H_R res rows newVar.size).1 ∧
      r.hR = (qrRot sq H_L H_R res rows newVar.size).2.1 ∧
      r.resv = (qrRot sq H_L H_R res rows newVar.size).2.2 := by
  intro r hr
  unfold initializeDelayed at hr
  simp [hpres, hiso, hgate] at hr
  exact ⟨by rw [← hr], by rw [← hr], by rw [← hr], by rw [← hr], by rw [← hr]⟩

/-- Witness for C9: on the concrete gate-path example the hypotheses hold,
the post-rejection `H_R` genuinely differs from the caller's original
(`-2 ≠ 3` in row 1), and the returned state is the unchanged input state. -/
theorem claim9_witness :
    ((1 : ℚ)/2 * (599/100) <
        initChi2 (fun _ => 0) exState [exVar0] exHR exHL exR exRes 2 1) ∧
    ((qrRot (fun _ => 0) exHL exHR exRes 2 1).2.1 1 0 ≠ exHR 1 0) ∧
    (okInit (initializeDelayed (fun _ => 0) (fun v _ => v) (fun _ => 599/100)
        exState exNew [exVar0] exHR exHL exR exRes 2 (1/2))
      { ok := true, state := exState, hR := exHR, hL := exHL,
        resv := exRes }).state = exState := by
  have hgate : (1 : ℚ)/2 * (599/100) <
      initChi2 (fun _ => 0) exState [exVar0] exHR exHL exR exRes 2 exNew.size := by
    have h1 : exNew.size = 1 := rfl
    rw [h1, exChi2_val]
    norm_num
  refine ⟨by simpa using hgate, ?_, ?_⟩
  · norm_num [qrRot, qrFold, qrStep, makeGivens, rotRowsM, rotRowsV, exHL, exHR,
      List.range_succ]
  · have heq : initializeDelayed (fun _ => 0) (fun v _ => v) (fun _ => 599/100)
        exState exNew [exVar0] exHR exHL exR exRes 2 (1/2)
        = .ok { ok := false, state := exState,
                hR := (qrRot (fun _ => 0) exHL exHR exRes 2 exNew.size).2.1,
                hL := (qrRot (fun _ => 0) exHL exHR exRes 2 exNew.size).1,
                resv := (qrRot (fun _ => 0) exHL exHR exRes 2 exNew.size).2.2 } := by
      unfold initializeDelayed
      have h1 : exState.vars.any (fun v => v.key = exNew.key) = false := by decide
      have h2 : isotropicB exR 2 = true := by decide
      have hg2 : (2⁻¹ : ℚ) * (599 / 100) <
          initChi2 (fun _ => 0) exState [exVar0] exHR exHL exR exRes 2 exNew.size := by
        rw [show ((2 : ℚ)⁻¹) = 1/2 by norm_num]
        exact hgate
      simp [h1, h2, hg2]
    have h := claim9_mutation_persists (fun _ => 0) (fun v _ => v)
      (fun _ => 599/100) exState exNew [exVar0] exHR exHL exR exRes 2 (1/2)
      (by decide) (by decide) hgate _ heq
    rw [heq]
    exact h.2.1

/-! ## Claim C3: `marginalize` deletes the variable's rows/columns -/

/-- `D` equals `C` with rows and columns `[a, a+sz)` deleted, over the live
`nNew × nNew` region. -/
def DeletedCov (C D : Mtx) (a sz nNew : Nat) : Prop :=
  ∀ i < nNew, ∀ j < nNew,
    D i j = C (if i < a then i else i + sz) (if j < a then j else j + sz)

instance (C D : Mtx) (a sz nNew : Nat) : Decidable (DeletedCov C D a sz nNew) :=
  decidable_of_iff
    (∀ i < nNew, ∀ j < nNew,
      D i j = C (if i < a then i else i + sz) (if j < a then j else j + sz))
    Iff.rfl

/-- The four-block construction of `Cov_new` (with the `P(x2,x1)` block taken
as the transpose of the freshly written `P(x1,x2)`) is exactly row/column
deletion, on a symmetric covariance. -/
theorem margCovNew_spec (C : Mtx) (a sz n : Nat) (ha : a + sz ≤ n)
    (hsym : SymmUpTo n C) :
    ∀ i < n - sz, ∀ j < n - sz,
      margCovNew C a sz (n - a - sz) i j
        = C (if i < a then i else i + sz) (if j < a then j else j + sz) := by
  intro i hi j hj
  unfold margCovNew
  by_cases h1 : i < a <;> by_cases h2 : j < a
  · rw [if_pos ⟨h1, h2⟩, if_pos h1, if_pos h2]
  · rw [if_neg (by omega : ¬(i < a ∧ j < a)),
        if_pos (by omega : i < a ∧ a ≤ j ∧ j < a + (n - a - sz)),
        if_pos h1, if_neg h2]
  · rw [if_neg (by omega : ¬(i < a ∧ j < a)),
        if_neg (by omega : ¬(i < a ∧ a ≤ j ∧ j < a + (n - a - sz))),
        if_pos (by omega : a ≤ i ∧ i < a + (n - a - sz) ∧ j < a),
        if_neg h1, if_pos h2]
    exact hsym j (by omega) (i + sz) (by omega)
  · rw [if_neg (by omega : ¬(i < a ∧ j < a)),
        if_neg (by omega : ¬(i < a ∧ a ≤ j ∧ j < a + (n - a - sz))),
        if_neg (by omega : ¬(a ≤ i ∧ i < a + (n - a - sz) ∧ j < a)),
        if_pos (by omega : a ≤ i ∧ i < a + (n - a - sz) ∧ a ≤ j ∧ j < a + (n - a - sz)),
        if_neg h1, if_neg h2]

/-- C3: for a state with (invariantly) symmetric covariance and a top-level
variable `m` at offset `id_m` with size `s_m`, `marginalize` shrinks `Cov` to
the `(N − s_m)`-sided matrix obtained by deleting rows/columns
`[id_m, id_m + s_m)`, removes `m` from `variables`, decrements by `s_m` the
id of every remaining variable whose id exceeds `id_m` (others keep their
id), and sets `m`'s id to `−1` (StateHelper.cpp:321-392). -/
theorem claim3_marginalize_spec (s : State) (mk : Nat) (m : Var)
    (hfind : s.vars.find? (fun v => v.key = mk) = some m)
    (hbound : m.nid + m.size ≤ s.n)
    (hsym : SymmUpTo s.n s.Cov) :
    isOkE (marginalize s mk) = true ∧
    (okPairState (marginalize s mk) s).n = s.n - m.size ∧
    DeletedCov s.Cov (okPairState (marginalize s mk) s).Cov m.nid m.size
      (s.n - m.size) ∧
    (∀ v ∈ (okPairState (marginalize s mk) s).vars, v.key ≠ mk) ∧
    (∀ v ∈ s.vars, v.key ≠ mk →
      (if m.id < v.id then { v with id := v.id - (m.size : Int) } else v)
        ∈ (okPairState (marginalize s mk) s).vars) ∧
    (okPairVar (marginalize s mk)).id = -1 ∧
    (okPairVar (marginalize s mk)).key = m.key := by
  unfold marginalize
  rw [hfind]
  refine ⟨rfl, rfl, ?_, ?_, ?_, rfl, rfl⟩
  · intro i hi j hj
    exact margCovNew_spec s.Cov m.nid m.size s.n hbound hsym i hi j hj
  · intro v hv
    rcases List.mem_map.mp hv with ⟨w, hw, rfl⟩
    rcases List.mem_filter.mp hw with ⟨_, hw2⟩
    simp only [decide_eq_true_eq] at hw2
    by_cases h : m.id < w.id <;> simp [h] <;> exact hw2
  · intro v hv hne
    exact List.mem_map.mpr ⟨v, List.mem_filter.mpr ⟨hv, by simp [hne]⟩, rfl⟩

def exM3 : Var := ⟨1, 1, 1, [5]⟩

def exS3 : State :=
  { n := 3, Cov := fun i j => if i = j then 2 else 1,
    vars := [⟨0, 0, 1, []⟩, exM3, ⟨2, 2, 1, []⟩], clonesIMU := [],
    featuresSLAM := [], timestamp := 0, imuPoseId := 0, imuPoseVal := [],
    imuVel := fun _ => 0, calibDtId := 0, doCalibCameraTimeoffset := false }

/-- Witness for C3: marginalizing the middle of three scalar variables of a
3×3 symmetric covariance. -/
theorem claim3_witness :
    SymmUpTo exS3.n exS3.Cov ∧
    (isOkE (marginalize exS3 1) = true ∧
     (okPairState (marginalize exS3 1) exS3).n = exS3.n - exM3.size ∧
     DeletedCov exS3.Cov (okPairState (marginalize exS3 1) exS3).Cov exM3.nid
       exM3.size (exS3.n - exM3.size) ∧
     (∀ v ∈ (okPairState (marginalize exS3 1) exS3).vars, v.key ≠ 1) ∧
     (∀ v ∈ exS3.vars, v.key ≠ 1 →
       (if exM3.id < v.id then { v with id := v.id - (exM3.size : Int) } else v)
         ∈ (okPairState (marginalize exS3 1) exS3).vars) ∧
     (okPairVar (marginalize exS3 1)).id = -1 ∧
     (okPairVar (marginalize exS3 1)).key = exM3.key) := by
  constructor
  · decide
  · exact claim3_marginalize_spec exS3 1 exM3 (by decide) (by decide) (by decide)

/-! ## Claim C5: `clone` grows the covariance and duplicates the block -/

/-- Closed form of the covariance after `cloneAt`: old entries preserved, the
new stripe/diagonal reading the source variable's stripe/diagonal. -/
theorem cloneAt_cov_spec (s : State) (oldLoc ts : Nat) (val : List ℚ) (nk : Nat)
    (hb : oldLoc + ts ≤ s.n) :
    ∀ i < s.n + ts, ∀ j < s.n + ts,
      (cloneAt s oldLoc ts val nk).1.Cov i j =
        s.Cov (if i < s.n then i else oldLoc + (i - s.n))
              (if j < s.n then j else oldLoc + (j - s.n)) := by
  intro i hi j hj
  simp only [cloneAt]
  by_cases hi' : i < s.n <;> by_cases hj' : j < s.n
  · rw [writeBlock_out _ _ _ _ _ _ (by omega), writeBlock_out _ _ _ _ _ _ (by omega),
        writeBlock_out _ _ _ _ _ _ (by omega), if_pos (by omega : i < s.n + ts ∧ j < s.n + ts),
        if_pos (And.intro hi' hj'), if_pos hi', if_pos hj']
  · rw [writeBlock_out _ _ _ _ _ _ (by omega),
        writeBlock_in _ _ _ _ _ _ ⟨by omega, by omega⟩ ⟨by omega, by omega⟩,
        writeBlock_out _ _ _ _ _ _ (by omega), Nat.sub_zero,
        if_pos (by omega : i < s.n + ts ∧ oldLoc + (j - s.n) < s.n + ts),
        if_pos (by omega : i < s.n ∧ oldLoc + (j - s.n) < s.n),
        if_pos hi', if_neg hj']
  · rw [writeBlock_in _ _ _ _ _ _ ⟨by omega, by omega⟩ ⟨by omega, by omega⟩,
        Nat.sub_zero, writeBlock_out _ _ _ _ _ _ (by omega),
        writeBlock_out _ _ _ _ _ _ (by omega),
        if_pos (by omega : oldLoc + (i - s.n) < s.n + ts ∧ j < s.n + ts),
        if_pos (by omega : oldLoc + (i - s.n) < s.n ∧ j < s.n),
        if_neg hi', if_pos hj']
  · rw [writeBlock_out _ _ _ _ _ _ (by omega), writeBlock_out _ _ _ _ _ _ (by omega),
        writeBlock_in _ _ _ _ _ _ ⟨by omega, by omega⟩ ⟨by omega, by omega⟩,
        if_pos (by omega : oldLoc + (i - s.n) < s.n + ts ∧ oldLoc + (j - s.n) < s.n + ts),
        if_pos (by omega : oldLoc + (i - s.n) < s.n ∧ oldLoc + (j - s.n) < s.n),
        if_neg hi', if_neg hj']

/-- C5: immediately after `clone(v)` (StateHelper.cpp:394-448) the covariance
has grown from `N` to `N + v.size` preserving all preexisting entries, the
returned clone `v'` is appended with `id = old N`, `v'.value = v.value`, and
the three blocks `Cov[v.range, v.range]`, `Cov[v'.range, v'.range]` and
`Cov[v.range, v'.range]` all coincide (each equals the pre-clone
`Cov[v.range, v.range]`). -/
theorem claim5_clone_spec (s : State) (vkey newKey : Nat) (v : Var)
    (hfind : s.vars.find? (fun w => w.key = vkey) = some v)
    (hb : v.nid + v.size ≤ s.n) :
    isOkE (clone s vkey newKey) = true ∧
    (okPairState (clone s vkey newKey) s).n = s.n + v.size ∧
    CovEqUpTo s.n (okPairState (clone s vkey newKey) s).Cov s.Cov ∧
    (okPairState (clone s vkey newKey) s).vars
      = s.vars ++ [okPairVar (clone s vkey newKey)] ∧
    (okPairVar (clone s vkey newKey)).id = (s.n : Int) ∧
    (okPairVar (clone s vkey newKey)).value = v.value ∧
    (okPairVar (clone s vkey newKey)).size = v.size ∧
    (∀ a < v.size, ∀ b < v.size,
      (okPairState (clone s vkey newKey) s).Cov (v.nid + a) (v.nid + b)
        = s.Cov (v.nid + a) (v.nid + b) ∧
      (okPairState (clone s vkey newKey) s).Cov (s.n + a) (s.n + b)
        = s.Cov (v.nid + a) (v.nid + b) ∧
      (okPairState (clone s vkey newKey) s).Cov (v.nid + a) (s.n + b)
        = s.Cov (v.nid + a) (v.nid + b)) := by
  unfold clone
  rw [hfind]
  have hspec := cloneAt_cov_spec s v.nid v.size v.value newKey hb
  refine ⟨rfl, rfl, ?_, rfl, rfl, rfl, rfl, ?_⟩
  · intro i hi j hj
    have h := hspec i (by omega) j (by omega)
    rw [if_pos hi, if_pos hj] at h
    exact h
  · intro a ha b hb2
    refine ⟨?_, ?_, ?_⟩
    · have h := hspec (v.nid + a) (by omega) (v.nid + b) (by omega)
      rw [if_pos (by omega), if_pos (by omega)] at h
      exact h
    · have h := hspec (s.n + a) (by omega) (s.n + b) (by omega)
      rw [if_neg (by omega), if_neg (by omega)] at h
      simpa using h
    · have h := hspec (v.nid + a) (by omega) (s.n + b) (by omega)
      rw [if_pos (by omega), if_neg (by omega)] at h
      simpa using h

def exS2 : State :=
  { n := 2, Cov := fun i j => if i = 0 ∧ j = 0 then 4 else if i = j then 1 else 2,
    vars := [⟨0, 0, 1, [3]⟩, ⟨1, 1, 1, [7]⟩], clonesIMU := [], featuresSLAM := [],
    timestamp := 0, imuPoseId := 0, imuPoseVal := [], imuVel := fun _ => 0,
    calibDtId := 0, doCalibCameraTimeoffset := false }

/-- Witness for C5: cloning the first scalar variable of a two-variable
state. -/
theorem claim5_witness :
    ((⟨0, 0, 1, [3]⟩ : Var).nid + (⟨0, 0, 1, [3]⟩ : Var).size ≤ exS2.n) ∧
    (isOkE (clone exS2 0 9) = true ∧
     (okPairState (clone exS2 0 9) exS2).n = exS2.n + 1 ∧
     CovEqUpTo exS2.n (okPairState (clone exS2 0 9) exS2).Cov exS2.Cov ∧
     (okPairState (clone exS2 0 9) exS2).vars
       = exS2.vars ++ [okPairVar (clone exS2 0 9)] ∧
     (okPairVar (clone exS2 0 9)).id = (exS2.n : Int) ∧
     (okPairVar (clone exS2 0 9)).value = [3] ∧
     (okPairVar (clone exS2 0 9)).size = 1 ∧
     (∀ a < 1, ∀ b < 1,
       (okPairState (clone exS2 0 9) exS2).Cov (0 + a) (0 + b)
         = exS2.Cov (0 + a) (0 + b) ∧
       (okPairState (clone exS2 0 9) exS2).Cov (exS2.n + a) (exS2.n + b)
         = exS2.Cov (0 + a) (0 + b) ∧
       (okPairState (clone exS2 0 9) exS2).Cov (0 + a) (exS2.n + b)
         = exS2.Cov (0 + a) (0 + b))) := by
  refine ⟨by decide, ?_⟩
  exact claim5_clone_spec exS2 0 9 ⟨0, 0, 1, [3]⟩ (by decide) (by decide)

/-! ## Claim C7: propagation with identity Φ and zero Q -/

/-- The identity state-transition matrix. -/
def idMtx : Mtx := fun i j => if i = j then 1 else 0

/-- The zero process noise. -/
def zeroMtx : Mtx := fun _ _ => 0

/-- Evaluate `F` at the located variable/offset (0 outside the order). -/
def locPick (l : List Var) (j : Nat) (F : Var → Nat → ℚ) : ℚ :=
  match locate l j with
  | some (v, c) => F v c
  | none => 0

/-- Collapsing a block-indicator double sum to the located summand. -/
theorem sum_locate (F : Var → Nat → ℚ) (l : List Var) (j : Nat) :
    (∑ k ∈ Finset.range l.length, ∑ c ∈ Finset.range (vAt l k).size,
       F (vAt l k) c * (if j = offAt l k + c then 1 else 0))
    = locPick l j F := by
  induction l generalizing j with
  | nil => simp [locPick, locate]
  | cons v rest ih =>
      rw [List.length_cons, Finset.sum_range_succ']
      simp only [vAt_cons_succ, offAt_cons_succ, vAt_cons_zero, offAt_zero]
      by_cases hj : j < v.size
      · have htail : (∑ k ∈ Finset.range rest.length,
            ∑ c ∈ Finset.range (vAt rest k).size,
              F (vAt rest k) c * (if j = v.size + offAt rest k + c then 1 else 0))
            = 0 := by
          apply Finset.sum_eq_zero
          intro k _
          apply Finset.sum_eq_zero
          intro c _
          rw [if_neg (by omega), mul_zero]
        have hhead : (∑ c ∈ Finset.range v.size,
            F v c * (if j = 0 + c then 1 else 0)) = F v j := by
          have : ∀ c, F v c * (if j = 0 + c then 1 else 0)
              = if j = c then F v c else 0 := by
            intro c
            rw [Nat.zero_add]
            by_cases h : j = c
            · rw [if_pos h, if_pos h, mul_one]
            · rw [if_neg h, if_neg h, mul_zero]
          rw [Finset.sum_congr rfl (fun c _ => this c), Finset.sum_ite_eq,
              if_pos (Finset.mem_range.mpr hj)]
        rw [htail, hhead, zero_add, locPick]
        simp [locate, hj]
      · have hhead : (∑ c ∈ Finset.range v.size,
            F v c * (if j = 0 + c then 1 else 0)) = 0 := by
          apply Finset.sum_eq_zero
          intro c hc
          rw [Finset.mem_range] at hc
          rw [if_neg (by omega), mul_zero]
        have htail : (∑ k ∈ Finset.range rest.length,
            ∑ c ∈ Finset.range (vAt rest k).size,
              F (vAt rest k) c * (if j = v.size + offAt rest k + c then 1 else 0))
            = locPick rest (j - v.size) F := by
          rw [← ih (j - v.size)]
          apply Finset.sum_congr rfl
          intro k _
          apply Finset.sum_congr rfl
          intro c _
          congr 1
          rw [if_congr (by omega : (j = v.size + offAt rest k + c)
            ↔ (j - v.size = offAt rest k + c)) rfl rfl]
        rw [hhead, htail, add_zero, locPick, locPick]
        simp only [locate, if_neg hj]

/-- `Cov_PhiT` with identity Φ reads the located old-variable column. -/
theorem covPhiT_id (C : Mtx) (olds : List Var) (i j : Nat) :
    covPhiT C idMtx olds i j = locPick olds j (fun v c => C i (v.nid + c)) := by
  rw [← sum_locate (fun v c => C i (v.nid + c)) olds j]
  unfold covPhiT idMtx
  rfl

/-- `Phi_Cov_PhiT` with identity Φ and zero Q reads the located row of
`Cov_PhiT`. -/
theorem phiCovPhiT_id0 (C : Mtx) (olds : List Var) (i j : Nat) :
    phiCovPhiT C idMtx zeroMtx olds i j
      = locPick olds i (fun v c => covPhiT C idMtx olds (v.nid + c) j) := by
  unfold phiCovPhiT
  have h0 : symU zeroMtx i j = 0 := by
    unfold symU zeroMtx
    split <;> rfl
  rw [h0, zero_add,
      ← sum_locate (fun v c => covPhiT C idMtx olds (v.nid + c) j) olds i]
  apply Finset.sum_congr rfl
  intro k _
  apply Finset.sum_congr rfl
  intro c _
  unfold idMtx
  ring

theorem head_mem {l : List Var} (h : l ≠ []) : vAt l 0 ∈ l := by
  cases l with
  | nil => exact absurd rfl h
  | cons a t => exact List.mem_cons_self a t

/-- Under the contiguity precondition of `EKFPropagation`, the located
covariance address of stacked row `j` is `base + j`. -/
theorem locate_contig : ∀ (l : List Var), contiguous l = true →
    0 ≤ (vAt l 0).id →
    ∀ {j : Nat} {v : Var} {c : Nat}, locate l j = some (v, c) →
      v.nid + c = (vAt l 0).nid + j := by
  intro l
  induction l with
  | nil =>
      intro _ _ j v c h
      simp [locate] at h
  | cons a t ih =>
      intro hc h0 j v c h
      by_cases hj : j < a.size
      · simp only [locate, if_pos hj, Option.some.injEq, Prod.mk.injEq] at h
        rw [vAt_cons_zero, ← h.1, ← h.2]
      · simp only [locate, if_neg hj] at h
        cases t with
        | nil => simp [locate] at h
        | cons b t2 =>
            have hc' : (decide (a.id + (a.size : Int) = b.id)
                && contiguous (b :: t2)) = true := hc
            rw [Bool.and_eq_true, decide_eq_true_eq] at hc'
            have ha0 : 0 ≤ a.id := by simpa [vAt_cons_zero] using h0
            have hb0 : (0 : Int) ≤ b.id := by omega
            have hrec := ih hc'.2 (by simpa [vAt_cons_zero] using hb0) h
            rw [vAt_cons_zero] at hrec ⊢
            have hb : b.nid = a.nid + a.size := by
              unfold Var.nid
              omega
            unfold Var.nid at hrec ⊢
            omega

/-- The negative-diagonal scan returns `false` exactly when no live diagonal
entry is negative. -/
theorem negDiag_false_iff (C : Mtx) (n : Nat) :
    negDiag C n = false ↔ ∀ i < n, ¬ C i i < 0 := by
  unfold negDiag
  rw [List.any_eq_false]
  constructor
  · intro h i hi
    have := h i (List.mem_range.mpr hi)
    simpa using this
  · intro h i hi
    simp [h i (List.mem_range.mp hi)]

/-- With identity Φ, zero Q, and `order_new = order_old` contiguous and in
bounds, the write-back matrix of `EKFPropagation` coincides with the original
(symmetric) covariance on the live region. -/
theorem propCov_id (s : State) (ord : List Var)
    (hne : ord ≠ [])
    (hcontig : contiguous ord = true)
    (hin : InBounds ord s.n)
    (hsym : SymmUpTo s.n s.Cov) :
    ∀ x < s.n, ∀ y < s.n, propCov s ord ord idMtx zeroMtx x y = s.Cov x y := by
  have h0 : 0 ≤ (vAt ord 0).id := (hin _ (head_mem hne)).1
  have hCpT : ∀ x, ∀ y < sizeSum ord,
      covPhiT s.Cov idMtx ord x y = s.Cov x ((vAt ord 0).nid + y) := by
    intro x y hy
    rw [covPhiT_id]
    rcases locate_isSome (l := ord) (j := y) hy with ⟨v, c, hv⟩
    rw [locPick, hv]
    show s.Cov x (v.nid + c) = s.Cov x ((vAt ord 0).nid + y)
    rw [locate_contig ord hcontig h0 hv]
  have hPCP : ∀ x < sizeSum ord, ∀ y < sizeSum ord,
      phiCovPhiT s.Cov idMtx zeroMtx ord x y
        = s.Cov ((vAt ord 0).nid + x) ((vAt ord 0).nid + y) := by
    intro x hx y hy
    rw [phiCovPhiT_id0]
    rcases locate_isSome (l := ord) (j := x) hx with ⟨v, c, hv⟩
    rw [locPick, hv]
    show covPhiT s.Cov idMtx ord (v.nid + c) y = _
    rw [locate_contig ord hcontig h0 hv, hCpT _ y hy]
  intro x hx y hy
  unfold propCov
  by_cases hxb : (vAt ord 0).nid ≤ x ∧ x < (vAt ord 0).nid + sizeSum ord <;>
    by_cases hyb : (vAt ord 0).nid ≤ y ∧ y < (vAt ord 0).nid + sizeSum ord
  · rw [writeBlock_in _ _ _ _ _ _ hxb hyb,
        hPCP _ (by omega) _ (by omega)]
    congr 1 <;> omega
  · rw [writeBlock_out _ _ _ _ _ _ (by omega),
        writeBlock_out _ _ _ _ _ _ (by omega),
        writeBlock_in _ _ _ _ _ _ ⟨hxb.1, hxb.2⟩ ⟨Nat.zero_le y, by omega⟩,
        hCpT _ _ (by omega)]
    rw [show (vAt ord 0).nid + (x - (vAt ord 0).nid) = x by omega]
    exact hsym y hy x hx
  · rw [writeBlock_out _ _ _ _ _ _ (by omega),
        writeBlock_in _ _ _ _ _ _ ⟨Nat.zero_le x, by omega⟩ ⟨hyb.1, hyb.2⟩,
        Nat.sub_zero, hCpT _ _ (by omega)]
    congr 1
    omega
  · rw [writeBlock_out _ _ _ _ _ _ (by omega),
        writeBlock_out _ _ _ _ _ _ (by omega),
        writeBlock_out _ _ _ _ _ _ (by omega)]

/-- C7: calling `EKFPropagation` with identity Φ, zero Q and
`order_new = order_old` on a state with symmetric covariance (and the
invariant non-negative diagonal) succeeds and leaves the covariance exactly
unchanged (StateHelper.cpp:74-135). -/
theorem claim7_identity_propagation (s : State) (ord : List Var)
    (hne : ord ≠ [])
    (hcontig : contiguous ord = true)
    (hin : InBounds ord s.n)
    (htop : (vAt ord 0).nid + sizeSum ord ≤ s.n)
    (hsym : SymmUpTo s.n s.Cov)
    (hdiag : ∀ i < s.n, 0 ≤ s.Cov i i) :
    isOkE (EKFPropagation s ord ord idMtx zeroMtx) = true ∧
    (okState (EKFPropagation s ord ord idMtx zeroMtx) s).n = s.n ∧
    CovEqUpTo s.n (okState (EKFPropagation s ord ord idMtx zeroMtx) s).Cov
      s.Cov := by
  have hwb := propCov_id s ord hne hcontig hin hsym
  have hEmpty : ord.isEmpty = false := by
    cases ord with
    | nil => exact absurd rfl hne
    | cons a t => rfl
  have hnd : negDiag (propCov s ord ord idMtx zeroMtx) s.n = false := by
    rw [negDiag_false_iff]
    intro i hi
    rw [hwb i hi i hi]
    exact not_lt.mpr (hdiag i hi)
  have hres : EKFPropagation s ord ord idMtx zeroMtx
      = .ok { s with Cov := propCov s ord ord idMtx zeroMtx } := by
    unfold EKFPropagation
    rw [if_neg (by simp [hEmpty]), if_neg (by simp [hcontig]),
        if_neg (by simp [hnd])]
  rw [hres]
  exact ⟨rfl, rfl, fun i hi j hj => hwb i hi j hj⟩

/-- Witness for C7: identity propagation over the single leading variable of
the 3×3 example state. -/
theorem claim7_witness :
    (SymmUpTo exS3.n exS3.Cov ∧ InBounds [⟨0, 0, 1, []⟩] exS3.n) ∧
    (isOkE (EKFPropagation exS3 [⟨0, 0, 1, []⟩] [⟨0, 0, 1, []⟩] idMtx zeroMtx)
        = true ∧
     (okState (EKFPropagation exS3 [⟨0, 0, 1, []⟩] [⟨0, 0, 1, []⟩] idMtx zeroMtx)
        exS3).n = exS3.n ∧
     CovEqUpTo exS3.n
       (okState (EKFPropagation exS3 [⟨0, 0, 1, []⟩] [⟨0, 0, 1, []⟩] idMtx zeroMtx)
         exS3).Cov exS3.Cov) := by
  refine ⟨⟨by decide, by decide⟩, ?_⟩
  exact claim7_identity_propagation exS3 [⟨0, 0, 1, []⟩] (by decide) (by decide)
    (by decide) (by decide) (by decide) (by decide)

/-! ## Claim C6: `set_initial_covariance` / `get_marginal_covariance`
round trip -/

/-- Disjointness of the covariance ranges of two variables. -/
def vdisj (u v : Var) : Prop :=
  u.nid + u.size ≤ v.nid ∨ v.nid + v.size ≤ u.nid

instance (u v : Var) : Decidable (vdisj u v) :=
  decidable_of_iff (u.nid + u.size ≤ v.nid ∨ v.nid + v.size ≤ u.nid) Iff.rfl

theorem vAt_mem {l : List Var} {k : Nat} (h : k < l.length) : vAt l k ∈ l := by
  unfold vAt
  rw [List.getD_eq_getElem _ _ h]
  exact List.getElem_mem h

theorem colocate_none {l : List Var} {y : Nat}
    (h : ∀ v ∈ l, ¬(v.nid ≤ y ∧ y < v.nid + v.size)) :
    ∀ acc, colocate l y acc = none := by
  induction l with
  | nil => intro acc; rfl
  | cons v rest ih =>
      intro acc
      simp only [colocate, if_neg (h v (List.mem_cons_self v rest))]
      exact ih (fun u hu => h u (List.mem_cons_of_mem v hu)) _

/-- `colocate` finds position `p`'s variable at its own covariance address. -/
theorem colocate_at : ∀ (l : List Var), l.Pairwise vdisj →
    ∀ (p : Nat), p < l.length → ∀ (a : Nat), a < (vAt l p).size →
    ∀ acc, colocate l ((vAt l p).nid + a) acc
      = some (vAt l p, a, acc + offAt l p) := by
  intro l
  induction l with
  | nil =>
      intro _ p hp
      simp at hp
  | cons v rest ih =>
      intro hd p hp a ha acc
      rcases List.pairwise_cons.mp hd with ⟨hdv, hdr⟩
      cases p with
      | zero =>
          rw [vAt_cons_zero] at ha ⊢
          simp only [colocate, offAt_zero, Nat.add_zero]
          rw [if_pos (by omega), show v.nid + a - v.nid = a by omega]
      | succ k =>
          rw [vAt_cons_succ] at ha ⊢
          have hk : k < rest.length := by
            simpa using Nat.lt_of_succ_lt_succ hp
          have hmem : vAt rest k ∈ rest := vAt_mem hk
          have hdisj := hdv _ hmem
          simp only [colocate]
          rw [if_neg (by unfold vdisj at hdisj; omega)]
          rw [ih hdr k hk a ha (acc + v.size), offAt_cons_succ, Nat.add_assoc]

/-- `locate` inverts the stacked offsets: the located variable sits at some
position `p` with `offAt p + c = i`. -/
theorem locate_offAt : ∀ {l : List Var} {i : Nat} {v : Var} {c : Nat},
    locate l i = some (v, c) →
    ∃ p, p < l.length ∧ vAt l p = v ∧ offAt l p + c = i := by
  intro l
  induction l with
  | nil => intro i v c h; simp [locate] at h
  | cons a t ih =>
      intro i v c h
      by_cases hi : i < a.size
      · simp only [locate, if_pos hi, Option.some.injEq, Prod.mk.injEq] at h
        refine ⟨0, by simp, by rw [vAt_cons_zero, h.1], ?_⟩
        rw [offAt_zero]
        omega
      · simp only [locate, if_neg hi] at h
        rcases ih h with ⟨p, hp, hv, ho⟩
        exact ⟨p + 1, by simpa using Nat.succ_lt_succ hp, by
          rw [vAt_cons_succ, hv], by rw [offAt_cons_succ]; omega⟩

/-- Membership facts of a successful `colocate`. -/
theorem colocate_mem : ∀ {l : List Var} {y acc : Nat} {v : Var} {b ko : Nat},
    colocate l y acc = some (v, b, ko) →
    v ∈ l ∧ v.nid ≤ y ∧ y < v.nid + v.size ∧ b = y - v.nid := by
  intro l
  induction l with
  | nil => intro y acc v b ko h; simp [colocate] at h
  | cons u rest ih =>
      intro y acc v b ko h
      by_cases hy : u.nid ≤ y ∧ y < u.nid + u.size
      · simp only [colocate, if_pos hy, Option.some.injEq, Prod.mk.injEq] at h
        refine ⟨by rw [← h.1]; exact List.mem_cons_self u rest, ?_, ?_, ?_⟩ <;>
          rw [← h.1] <;> first
          | exact hy.1
          | exact hy.2
          | rw [← h.2.1]
      · simp only [colocate, if_neg hy] at h
        rcases ih h with ⟨h1, h2, h3, h4⟩
        exact ⟨List.mem_cons_of_mem u h1, h2, h3, h4⟩

/-- Denotation of the inner loop of `set_initial_covariance`: on rows of
`oi`, the columns located in `l` (pairwise-disjoint) read the input block;
everything else is untouched. -/
theorem setInner_spec (inp : Mtx) (oi : Var) (ioff : Nat) :
    ∀ (l : List Var), l.Pairwise vdisj → ∀ (koff : Nat) (C : Mtx) (x y : Nat),
      setInner inp oi ioff l koff C x y
        = match colocate l y koff with
          | some (_, b, ko) =>
              if oi.nid ≤ x ∧ x < oi.nid + oi.size
              then inp (ioff + (x - oi.nid)) (ko + b) else C x y
          | none => C x y := by
  intro l
  induction l with
  | nil => intro _ koff C x y; rfl
  | cons okv rest ih =>
      intro hd koff C x y
      rcases List.pairwise_cons.mp hd with ⟨hdv, hdr⟩
      show setInner inp oi ioff rest (koff + okv.size)
        (writeBlock C oi.nid okv.nid oi.size okv.size
          (fun a b => inp (ioff + a) (koff + b))) x y = _
      rw [ih hdr (koff + okv.size) _ x y]
      by_cases hy : okv.nid ≤ y ∧ y < okv.nid + okv.size
      · have hnone : colocate rest y (koff + okv.size) = none := by
          apply colocate_none
          intro u hu
          have := hdv u hu
          unfold vdisj at this
          omega
        rw [hnone]
        simp only [colocate, if_pos hy]
        by_cases hx : oi.nid ≤ x ∧ x < oi.nid + oi.size
        · rw [if_pos hx,
              writeBlock_in _ _ _ _ _ _ ⟨hx.1, hx.2⟩ ⟨hy.1, hy.2⟩]
        · rw [if_neg hx, writeBlock_out _ _ _ _ _ _ (by tauto)]
      · simp only [colocate, if_neg hy]
        have hCout : writeBlock C oi.nid okv.nid oi.size okv.size
            (fun a b => inp (ioff + a) (koff + b)) x y = C x y :=
          writeBlock_out _ _ _ _ _ _ (by tauto)
        cases hc : colocate rest y (koff + okv.size) with
        | none => rw [hCout]
        | some p =>
            rcases p with ⟨v, b, ko⟩
            exact if_congr Iff.rfl rfl hCout

/-- Denotation of `set_initial_covariance`'s double loop (before the final
symmetrization), for a pairwise-disjoint order. -/
theorem setOuter_spec (inp : Mtx) (order : List Var)
    (horder : order.Pairwise vdisj) :
    ∀ (l : List Var), l.Pairwise vdisj → ∀ (ioff : Nat) (C : Mtx) (x y : Nat),
      setOuter inp order l ioff C x y
        = match colocate l x ioff with
          | some (u, a, io) =>
              (match colocate order y 0 with
               | some (_, b, ko) => inp (io + a) (ko + b)
               | none => C x y)
          | none => C x y := by
  intro l
  induction l with
  | nil => intro _ ioff C x y; rfl
  | cons oi rest ih =>
      intro hd ioff C x y
      rcases List.pairwise_cons.mp hd with ⟨hdv, hdr⟩
      show setOuter inp order rest (ioff + oi.size)
        (setInner inp oi ioff order 0 C) x y = _
      rw [ih hdr (ioff + oi.size) _ x y]
      by_cases hx : oi.nid ≤ x ∧ x < oi.nid + oi.size
      · have hnone : colocate rest x (ioff + oi.size) = none := by
          apply colocate_none
          intro u hu
          have := hdv u hu
          unfold vdisj at this
          omega
        rw [hnone]
        simp only [colocate, if_pos hx]
        rw [setInner_spec inp oi ioff order horder 0 C x y]
        cases hc : colocate order y 0 with
        | none => rfl
        | some p =>
            rcases p with ⟨v, b, ko⟩
            exact if_pos hx
      · simp only [colocate, if_neg hx]
        have hCeq : setInner inp oi ioff order 0 C x y = C x y := by
          rw [setInner_spec inp oi ioff order horder 0 C x y]
          cases hc : colocate order y 0 with
          | none => rfl
          | some p =>
              rcases p with ⟨v, b, ko⟩
              exact if_neg hx
        cases hc : colocate rest x (ioff + oi.size) with
        | none => rw [hCeq]
        | some p =>
            rcases p with ⟨u, a, io⟩
            cases hc2 : colocate order y 0 with
            | none => rw [hCeq]
            | some q => rfl

/-- C6: overwriting the blocks of an ordered, disjointly-ranged variable list
with a symmetric input (in particular the block-diagonal inputs of the
spec) via `set_initial_covariance` and reading them back with
`get_marginal_covariance` over the same order recovers the input exactly
(StateHelper.cpp:242-298).  `get_marginal_covariance` is pure by
construction: it takes the state and returns only the assembled matrix. -/
theorem claim6_roundtrip (s : State) (order : List Var) (inp : Mtx)
    (hin : InBounds order s.n)
    (hdisj : order.Pairwise vdisj)
    (hsymm : SymmUpTo (sizeSum order) inp) :
    CovEqUpTo (sizeSum order)
      (get_marginal_covariance (set_initial_covariance s inp order) order)
      inp := by
  intro i hi j hj
  rcases locate_isSome (l := order) (j := i) hi with ⟨a, ra, hra⟩
  rcases locate_isSome (l := order) (j := j) hj with ⟨b, rb, hrb⟩
  rcases locate_offAt hra with ⟨p, hp, hpv, hpo⟩
  rcases locate_offAt hrb with ⟨q, hq, hqv, hqo⟩
  have hca : colocate order (a.nid + ra) 0 = some (a, ra, offAt order p) := by
    have h := colocate_at order hdisj p hp ra
      (by rw [hpv]; exact (locate_mem hra).2) 0
    rw [hpv] at h
    simpa using h
  have hcb : colocate order (b.nid + rb) 0 = some (b, rb, offAt order q) := by
    have h := colocate_at order hdisj q hq rb
      (by rw [hqv]; exact (locate_mem hrb).2) 0
    rw [hqv] at h
    simpa using h
  unfold get_marginal_covariance
  rw [hra, hrb]
  show (set_initial_covariance s inp order).Cov (a.nid + ra) (b.nid + rb)
    = inp i j
  unfold set_initial_covariance symU
  show (if a.nid + ra ≤ b.nid + rb
        then setOuter inp order order 0 s.Cov (a.nid + ra) (b.nid + rb)
        else setOuter inp order order 0 s.Cov (b.nid + rb) (a.nid + ra))
    = inp i j
  by_cases hle : a.nid + ra ≤ b.nid + rb
  · rw [if_pos hle, setOuter_spec inp order hdisj order hdisj 0 s.Cov _ _,
        hca, hcb]
    show inp (offAt order p + ra) (offAt order q + rb) = inp i j
    rw [hpo, hqo]
  · rw [if_neg hle, setOuter_spec inp order hdisj order hdisj 0 s.Cov _ _,
        hcb, hca]
    show inp (offAt order q + rb) (offAt order p + ra) = inp i j
    rw [hpo, hqo]
    exact hsymm j hj i hi

/-- Witness for C6: a block-diagonal symmetric 3×3 input over an order of a
size-1 and a size-2 variable round-trips through the 3-wide example state. -/
theorem claim6_witness :
    (InBounds [⟨0, 0, 1, []⟩, ⟨1, 1, 2, []⟩] exS3.n ∧
     ([⟨0, 0, 1, []⟩, ⟨1, 1, 2, []⟩] : List Var).Pairwise vdisj ∧
     SymmUpTo (sizeSum [⟨0, 0, 1, []⟩, ⟨1, 1, 2, []⟩])
       (fun i j => if i = 0 ∧ j = 0 then 2 else if i = j then 3
                   else if (i = 1 ∧ j = 2) ∨ (i = 2 ∧ j = 1) then 1 else 0)) ∧
    CovEqUpTo (sizeSum [⟨0, 0, 1, []⟩, ⟨1, 1, 2, []⟩])
      (get_marginal_covariance
        (set_initial_covariance exS3
          (fun i j => if i = 0 ∧ j = 0 then 2 else if i = j then 3
                      else if (i = 1 ∧ j = 2) ∨ (i = 2 ∧ j = 1) then 1 else 0)
          [⟨0, 0, 1, []⟩, ⟨1, 1, 2, []⟩])
        [⟨0, 0, 1, []⟩, ⟨1, 1, 2, []⟩])
      (fun i j => if i = 0 ∧ j = 0 then 2 else if i = j then 3
                  else if (i = 1 ∧ j = 2) ∨ (i = 2 ∧ j = 1) then 1 else 0) := by
  refine ⟨⟨by decide, by decide, by decide⟩, ?_⟩
  exact claim6_roundtrip exS3 [⟨0, 0, 1, []⟩, ⟨1, 1, 2, []⟩] _
    (by decide) (by decide) (by decide)

/-! ## Claim C4: trace monotonicity of `EKFUpdate` -/

open Matrix

theorem invF_eq_inv (d : Nat) (A : Matrix (Fin d) (Fin d) ℚ) : invF d A = A⁻¹ := by
  rw [Matrix.inv_def, Ring.inverse_eq_inv, invF]

/-- Rectangular restriction of a function matrix. -/
def matR (d w : Nat) (f : Mtx) : Matrix (Fin d) (Fin w) ℚ :=
  Matrix.of fun i j => f i.val j.val

/-- Padding a `Fin`-vector back to a total function. -/
def padVec (d : Nat) (v : Fin d → ℚ) : Vec :=
  fun i => if h : i < d then v ⟨i, h⟩ else 0

theorem vecOf_padVec (d : Nat) (v : Fin d → ℚ) : vecOf d (padVec d v) = v := by
  funext i
  simp [vecOf, padVec, i.isLt]

theorem qform_matOf (A : Mtx) (d : Nat) (x : Vec) :
    qform A d x = (vecOf d x) ⬝ᵥ ((matOf d A).mulVec (vecOf d x)) := by
  have h : (vecOf d x) ⬝ᵥ ((matOf d A).mulVec (vecOf d x))
      = ∑ i : Fin d, x i.val * ∑ j : Fin d, A i.val j.val * x j.val := by
    simp [Matrix.dotProduct, Matrix.mulVec, vecOf, matOf]
  rw [h,
      show (∑ i : Fin d, x i.val * ∑ j : Fin d, A i.val j.val * x j.val)
        = ∑ i : Fin d, x i.val * ∑ j ∈ Finset.range d, A i.val j * x j from
        Finset.sum_congr rfl (fun i _ => by
          rw [Fin.sum_univ_eq_sum_range (fun j => A i.val j * x j) d]),
      Fin.sum_univ_eq_sum_range (fun i => x i * ∑ j ∈ Finset.range d, A i j * x j) d]
  unfold qform
  apply Finset.sum_congr rfl
  intro i _
  rw [Finset.mul_sum]
  apply Finset.sum_congr rfl
  intro j _
  ring

/-- PSD at the `Fin` level from `PSDUpTo`. -/
theorem psd_matOf {A : Mtx} {n : Nat} (h : PSDUpTo A n) :
    ∀ v : Fin n → ℚ, 0 ≤ v ⬝ᵥ ((matOf n A).mulVec v) := by
  intro v
  have h2 := h.2 (padVec n v)
  rw [qform_matOf, vecOf_padVec] at h2
  exact h2

/-- The inverse of a matrix with nonnegative quadratic form has nonnegative
quadratic form (the singular case inverts to `0`). -/
theorem matPSD_invF (d : Nat) (A : Matrix (Fin d) (Fin d) ℚ)
    (h : ∀ v : Fin d → ℚ, 0 ≤ v ⬝ᵥ A.mulVec v) :
    ∀ v : Fin d → ℚ, 0 ≤ v ⬝ᵥ (invF d A).mulVec v := by
  intro v
  rw [invF_eq_inv]
  by_cases hdet : IsUnit A.det
  · have hv : A.mulVec (A⁻¹.mulVec v) = v := by
      rw [Matrix.mulVec_mulVec, Matrix.mul_nonsing_inv A hdet, Matrix.one_mulVec]
    calc (0 : ℚ) ≤ (A⁻¹.mulVec v) ⬝ᵥ A.mulVec (A⁻¹.mulVec v) := h _
    _ = (A⁻¹.mulVec v) ⬝ᵥ v := by rw [hv]
    _ = v ⬝ᵥ A⁻¹.mulVec v := Matrix.dotProduct_comm _ _
  · rw [Matrix.nonsing_inv_apply_not_isUnit A hdet, Matrix.zero_mulVec,
        Matrix.dotProduct_zero]

theorem invF_transpose (d : Nat) (A : Matrix (Fin d) (Fin d) ℚ) (h : Aᵀ = A) :
    (invF d A)ᵀ = invF d A := by
  rw [invF_eq_inv, Matrix.transpose_nonsing_inv, h]

theorem liftMat_symmUpTo (d : Nat) (A : Matrix (Fin d) (Fin d) ℚ) (h : Aᵀ = A) :
    SymmUpTo d (liftMat d A) := by
  intro i hi j hj
  have hA := congrFun (congrFun h ⟨j, hj⟩) ⟨i, hi⟩
  rw [Matrix.transpose_apply] at hA
  simp only [liftMat, dif_pos (And.intro hi hj), dif_pos (And.intro hj hi)]
  exact hA

theorem matOf_liftMat (d : Nat) (A : Matrix (Fin d) (Fin d) ℚ) :
    matOf d (liftMat d A) = A := by
  ext i j
  show liftMat d A i.val j.val = A i j
  simp [liftMat, i.isLt, j.isLt]

theorem qform_symU_eq (A : Mtx) (d : Nat) (h : SymmUpTo d A) (x : Vec) :
    qform (symU A) d x = qform A d x := by
  unfold qform
  apply Finset.sum_congr rfl
  intro i hi
  apply Finset.sum_congr rfl
  intro j hj
  rw [Finset.mem_range] at hi hj
  have hs : symU A i j = A i j := by
    unfold symU
    split
    · rfl
    · exact h j hj i hi
  rw [hs]

theorem matOf_symU_transpose (A : Mtx) (d : Nat) :
    (matOf d (symU A))ᵀ = matOf d (symU A) := by
  ext i j
  rw [Matrix.transpose_apply]
  exact symU_symm A j.val i.val

theorem matOf_symU_eq (A : Mtx) (d : Nat) (h : SymmUpTo d A) :
    matOf d (symU A) = matOf d A := by
  ext i j
  show symU A i.val j.val = A i.val j.val
  unfold symU
  split
  · rfl
  · exact h j.val j.isLt i.val i.isLt

theorem dot_sandwich {d w : Nat} (A : Matrix (Fin d) (Fin w) ℚ)
    (B : Matrix (Fin w) (Fin w) ℚ) (v : Fin d → ℚ) :
    v ⬝ᵥ (A * B * Aᵀ).mulVec v = (Aᵀ.mulVec v) ⬝ᵥ B.mulVec (Aᵀ.mulVec v) := by
  rw [← Matrix.mulVec_mulVec, ← Matrix.mulVec_mulVec, Matrix.dotProduct_mulVec,
      ← Matrix.mulVec_transpose]

/-- The covariance address of stacked coordinate `p` of an order. -/
def locAddr (l : List Var) (p : Nat) : Nat :=
  match locate l p with
  | some (v, c) => v.nid + c
  | none => 0

/-- The 0/1 selection matrix scattering an order's stacked coordinates into
the big covariance. -/
def selE (l : List Var) (n : Nat) : Matrix (Fin (sizeSum l)) (Fin n) ℚ :=
  Matrix.of fun p t => if locAddr l p.val = t.val then 1 else 0

theorem locAddr_lt {l : List Var} {n : Nat} (hin : InBounds l n) {p : Nat}
    (hp : p < sizeSum l) : locAddr l p < n := by
  rcases locate_isSome (l := l) (j := p) hp with ⟨v, c, hv⟩
  rcases locate_mem hv with ⟨hm, hc⟩
  have hb := hin v hm
  unfold locAddr
  rw [hv]
  show v.nid + c < n
  omega

theorem margCov_addr (s : State) (l : List Var) {p q : Nat}
    (hp : p < sizeSum l) (hq : q < sizeSum l) :
    get_marginal_covariance s l p q = s.Cov (locAddr l p) (locAddr l q) := by
  rcases locate_isSome (l := l) (j := p) hp with ⟨v, c, hv⟩
  rcases locate_isSome (l := l) (j := q) hq with ⟨u, e, hu⟩
  unfold get_marginal_covariance locAddr
  rw [hv, hu]

/-- `P_small` is the selection sandwich `E · Cov · Eᵀ`. -/
theorem matOf_margCov (s : State) (l : List Var) (hin : InBounds l s.n) :
    matOf (sizeSum l) (get_marginal_covariance s l)
      = selE l s.n * matOf s.n s.Cov * (selE l s.n)ᵀ := by
  ext p q
  have hap : locAddr l p.val < s.n := locAddr_lt hin p.isLt
  have haq : locAddr l q.val < s.n := locAddr_lt hin q.isLt
  have hrow : ∀ u : Fin s.n,
      (selE l s.n * matOf s.n s.Cov) p u
        = matOf s.n s.Cov ⟨locAddr l p.val, hap⟩ u := by
    intro u
    rw [Matrix.mul_apply]
    have hterm : ∀ t : Fin s.n,
        selE l s.n p t * matOf s.n s.Cov t u
          = if (⟨locAddr l p.val, hap⟩ : Fin s.n) = t
            then matOf s.n s.Cov t u else 0 := by
      intro t
      show (if locAddr l p.val = t.val then (1:ℚ) else 0) * _ = _
      by_cases hc : locAddr l p.val = t.val
      · rw [if_pos hc, if_pos (Fin.ext hc), one_mul]
      · rw [if_neg hc, if_neg (fun he => hc (congrArg Fin.val he)), zero_mul]
    rw [Finset.sum_congr rfl (fun t _ => hterm t), Finset.sum_ite_eq,
        if_pos (Finset.mem_univ _)]
  rw [Matrix.mul_apply, Finset.sum_congr rfl (fun u _ => by rw [hrow u])]
  have hterm2 : ∀ u : Fin s.n,
      matOf s.n s.Cov ⟨locAddr l p.val, hap⟩ u * (selE l s.n)ᵀ u q
        = if (⟨locAddr l q.val, haq⟩ : Fin s.n) = u
          then matOf s.n s.Cov ⟨locAddr l p.val, hap⟩ u else 0 := by
    intro u
    show _ * (if locAddr l q.val = u.val then (1:ℚ) else 0) = _
    by_cases hc : locAddr l q.val = u.val
    · rw [if_pos hc, if_pos (Fin.ext hc), mul_one]
    · rw [if_neg hc, if_neg (fun he => hc (congrArg Fin.val he)), mul_zero]
  rw [Finset.sum_congr rfl (fun u _ => hterm2 u), Finset.sum_ite_eq,
      if_pos (Finset.mem_univ _)]
  show get_marginal_covariance s l p.val q.val = s.Cov (locAddr l p.val) (locAddr l q.val)
  exact margCov_addr s l p.isLt q.isLt

/-- `H·P·Hᵀ` at the `Fin` level. -/
theorem matOf_hPHt (H P : Mtx) (d w : Nat) :
    matOf d (hPHt H P w) = matR d w H * matOf w P * (matR d w H)ᵀ := by
  ext i j
  show hPHt H P w i.val j.val = _
  rw [Matrix.mul_apply]
  have hinner : ∀ b : Fin w,
      (matR d w H * matOf w P) i b * (matR d w H)ᵀ b j
        = (∑ a ∈ Finset.range w, H i.val a * P a b.val) * H j.val b.val := by
    intro b
    rw [Matrix.mul_apply]
    congr 1
    rw [← Fin.sum_univ_eq_sum_range (fun a => H i.val a * P a b.val) w]
    rfl
  rw [Finset.sum_congr rfl (fun b _ => hinner b),
      Fin.sum_univ_eq_sum_range
        (fun b => (∑ a ∈ Finset.range w, H i.val a * P a b) * H j.val b) w]
  unfold hPHt
  rw [Finset.sum_comm]
  apply Finset.sum_congr rfl
  intro b _
  rw [Finset.sum_mul]

theorem margCov_symmUpTo (s : State) (l : List Var) (hin : InBounds l s.n)
    (hsym : SymmUpTo s.n s.Cov) :
    SymmUpTo (sizeSum l) (get_marginal_covariance s l) := by
  intro i hi j hj
  rw [margCov_addr s l hi hj, margCov_addr s l hj hi]
  exact hsym _ (locAddr_lt hin hi) _ (locAddr_lt hin hj)

theorem hPHt_symmUpTo (H P : Mtx) (w d : Nat) (hP : SymmUpTo w P) :
    SymmUpTo d (hPHt H P w) := by
  intro i hi j hj
  unfold hPHt
  rw [Finset.sum_comm]
  apply Finset.sum_congr rfl
  intro x hx
  apply Finset.sum_congr rfl
  intro y hy
  rw [Finset.mem_range] at hx hy
  rw [hP y hy x hx]
  ring

theorem sFun_symmUpTo (s : State) (hOrder : List Var) (H R : Mtx) (d : Nat)
    (hin : InBounds hOrder s.n) (hsym : SymmUpTo s.n s.Cov)
    (hR : SymmUpTo d R) : SymmUpTo d (sFun s hOrder H R) := by
  intro i hi j hj
  unfold sFun
  rw [hPHt_symmUpTo H _ _ d (margCov_symmUpTo s hOrder hin hsym) i hi j hj,
      hR i hi j hj]

theorem matOf_sFun (s : State) (hOrder : List Var) (H R : Mtx) (d : Nat) :
    matOf d (sFun s hOrder H R)
      = matOf d (hPHt H (get_marginal_covariance s hOrder) (sizeSum hOrder))
        + matOf d R := by
  ext i j
  show sFun s hOrder H R i.val j.val = _
  rw [Matrix.add_apply]
  rfl

/-- The symmetrized residual covariance `S` has a nonnegative quadratic form
whenever `Cov` and `R` are PSD. -/
theorem sFun_matPSD (s : State) (hOrder : List Var) (H R : Mtx) (d : Nat)
    (hCov : PSDUpTo s.Cov s.n) (hR : PSDUpTo R d) (hin : InBounds hOrder s.n) :
    ∀ v : Fin d → ℚ,
      0 ≤ v ⬝ᵥ (matOf d (symU (sFun s hOrder H R))).mulVec v := by
  intro v
  rw [matOf_symU_eq _ _ (sFun_symmUpTo s hOrder H R d hin hCov.1 hR.1),
      matOf_sFun, Matrix.add_mulVec, Matrix.dotProduct_add]
  have h1 : 0 ≤ v ⬝ᵥ (matOf d (hPHt H (get_marginal_covariance s hOrder)
      (sizeSum hOrder))).mulVec v := by
    rw [matOf_hPHt, dot_sandwich, matOf_margCov s hOrder hin, dot_sandwich]
    exact psd_matOf hCov _
  exact add_nonneg h1 (psd_matOf hR v)

/-- C4: for a state with PSD covariance and PSD measurement noise (with the
measured variables attached and in bounds), the trace of the covariance after
`EKFUpdate` does not exceed the trace before (StateHelper.cpp:183-211); the
update subtracts `K·M_aᵀ = M_a·S⁻¹·M_aᵀ`, whose diagonal is nonnegative
because `S⁻¹` is PSD (the Cholesky solve is modelled as the exact inverse,
`0` when `S` is singular; on a fatal abort the state is unchanged by
convention of `okState`). -/
theorem claim4_update_trace_monotone (bp : List ℚ → List ℚ → List ℚ)
    (s : State) (hOrder : List Var) (H : Mtx) (res : Vec) (R : Mtx) (d : Nat)
    (hCov : PSDUpTo s.Cov s.n) (hR : PSDUpTo R d)
    (hin : InBounds hOrder s.n) :
    covTrace (okState (EKFUpdate bp s hOrder H res R d) s) ≤ covTrace s := by
  have hSinvSymm : SymmUpTo d (solveInv d (symU (sFun s hOrder H R))) :=
    liftMat_symmUpTo d _ (invF_transpose d _ (matOf_symU_transpose _ d))
  have hrow : ∀ i, 0 ≤ ∑ a ∈ Finset.range d,
      updK s hOrder H R d i a * mA s hOrder H i a := by
    intro i
    have hq : (∑ a ∈ Finset.range d,
        updK s hOrder H R d i a * mA s hOrder H i a)
        = qform (symU (solveInv d (symU (sFun s hOrder H R)))) d
            (fun t => mA s hOrder H i t) := by
      unfold updK kGain qform
      rw [Finset.sum_congr rfl (fun a _ => Finset.sum_mul _ _ _),
          Finset.sum_comm]
    rw [hq, qform_symU_eq _ _ hSinvSymm, qform_matOf]
    have hlift : matOf d (solveInv d (symU (sFun s hOrder H R)))
        = invF d (matOf d (symU (sFun s hOrder H R))) := by
      unfold solveInv
      exact matOf_liftMat _ _
    rw [hlift]
    exact matPSD_invF d _ (sFun_matPSD s hOrder H R d hCov hR hin) _
  unfold EKFUpdate
  by_cases hnd : negDiag (updCov s hOrder H R d) s.n
  · rw [if_pos hnd]
    exact le_refl _
  · rw [if_neg hnd]
    show (∑ i ∈ Finset.range s.n, updCov s hOrder H R d i i) ≤ covTrace s
    have hdiagval : ∀ i, updCov s hOrder H R d i i
        = s.Cov i i - ∑ a ∈ Finset.range d,
            updK s hOrder H R d i a * mA s hOrder H i a := by
      intro i
      unfold updCov
      exact symU_apply_le _ (le_refl i)
    rw [Finset.sum_congr rfl (fun i _ => hdiagval i), Finset.sum_sub_distrib]
    exact sub_le_self _ (Finset.sum_nonneg (fun i _ => hrow i))

/-- Witness for C4: a scalar state with unit covariance, identity `H` and
unit noise. -/
theorem claim4_witness :
    PSDUpTo exState.Cov exState.n ∧ PSDUpTo exR 1 ∧
    InBounds [exVar0] exState.n ∧
    covTrace (okState
      (EKFUpdate (fun v _ => v) exState [exVar0] idMtx (fun _ => 0) exR 1)
      exState) ≤ covTrace exState := by
  have h1 : PSDUpTo exState.Cov exState.n := by
    refine ⟨by decide, ?_⟩
    intro x
    show (0:ℚ) ≤ ∑ i ∈ Finset.range 1, ∑ j ∈ Finset.range 1, x i * 1 * x j
    rw [Finset.sum_range_one, Finset.sum_range_one, mul_one]
    exact mul_self_nonneg _
  have h2 : PSDUpTo exR 1 := by
    refine ⟨by decide, ?_⟩
    intro x
    show (0:ℚ) ≤ ∑ i ∈ Finset.range 1, ∑ j ∈ Finset.range 1, x i * exR i j * x j
    rw [Finset.sum_range_one, Finset.sum_range_one]
    show (0:ℚ) ≤ x 0 * (if (0:Nat) = 0 then 1 else 0) * x 0
    rw [if_pos rfl, mul_one]
    exact mul_self_nonneg _
  exact ⟨h1, h2, by decide,
    claim4_update_trace_monotone (fun v _ => v) exState [exVar0] idMtx
      (fun _ => 0) exR 1 h1 h2 (by decide)⟩

/-! ## C8: Cholesky-failure handling in `EKFUpdate` (StateHelper.cpp:191-201) -/

/-- A 1×1 state with zero covariance: with `H = I` and `R = 0` the residual
covariance of an update is the singular matrix `S = [[0]]`, on which a
Cholesky factorization fails (`S` is not positive definite). -/
def exS8 : State :=
  { n := 1, Cov := zeroMtx, vars := [exVar0], clonesIMU := [],
    featuresSLAM := [], timestamp := 0, imuPoseId := 0, imuPoseVal := [],
    imuVel := fun _ => 0, calibDtId := 0, doCalibCameraTimeoffset := false }

/-- C8 counterexample: for the input `exS8`, `H = I`, `R = 0`, the residual
covariance `S = [[0]]` is singular (not positive definite, so its Cholesky
factorization fails), yet `EKFUpdate` returns successfully instead of
aborting fatally: the code uses the `llt().solveInPlace` output with no
failure check. -/
theorem claim8_counterexample :
    ¬ IsUnit (matOf 1 (symU (sFun exS8 [exVar0] idMtx zeroMtx))).det ∧
    isOkE (EKFUpdate (fun v _ => v) exS8 [exVar0] idMtx (fun _ => 0) zeroMtx 1)
      = true := by
  constructor
  · rw [Matrix.det_fin_one]
    show ¬ IsUnit (symU (sFun exS8 [exVar0] idMtx zeroMtx) 0 0)
    have hS : symU (sFun exS8 [exVar0] idMtx zeroMtx) 0 0 = 0 := by
      norm_num [symU, sFun, hPHt, get_marginal_covariance, zeroMtx, idMtx,
        locate, sizeSum, vAt, offAt, Var.nid, exS8, exVar0,
        Finset.sum_range_one]
    rw [hS]
    exact not_isUnit_zero
  · have hMa : ∀ j, mA exS8 [exVar0] idMtx 0 j = 0 := by
      intro j
      show (if covered exS8.vars 0 then mAll exS8.Cov idMtx [exVar0] 0 j
        else 0) = 0
      have hz : mAll exS8.Cov idMtx [exVar0] 0 j = 0 := by
        unfold mAll
        apply Finset.sum_eq_zero
        intro k _
        apply Finset.sum_eq_zero
        intro c _
        show exS8.Cov 0 ((vAt [exVar0] k).nid + c) * _ = 0
        show (0:ℚ) * _ = 0
        exact zero_mul _
      rw [hz]
      exact ite_self 0
    have hdc : updCov exS8 [exVar0] idMtx zeroMtx 1 0 0 = 0 := by
      unfold updCov
      rw [symU_apply_le _ (le_refl 0), Finset.sum_range_one, hMa 0, mul_zero]
      show (0:ℚ) - 0 = 0
      norm_num
    have hnd : negDiag (updCov exS8 [exVar0] idMtx zeroMtx 1) exS8.n = false := by
      rw [negDiag_false_iff]
      intro i hi
      have hi0 : i = 0 := by
        have : i < 1 := hi
        omega
      rw [hi0, hdc]
      norm_num
    unfold EKFUpdate
    rw [hnd]
    rfl

/-- C8 (amended): `EKFUpdate` performs no Cholesky-failure check — the
`llt().solveInPlace` output is used unconditionally; the update aborts
fatally exactly when the negative-diagonal post-check on the written
covariance fires. -/
theorem claim8_no_cholesky_abort (bp : List ℚ → List ℚ → List ℚ) (s : State)
    (hOrder : List Var) (H : Mtx) (res : Vec) (R : Mtx) (d : Nat) :
    EKFUpdate bp s hOrder H res R d = .error () ↔
      negDiag (updCov s hOrder H R d) s.n = true := by
  unfold EKFUpdate
  by_cases h : negDiag (updCov s hOrder H R d) s.n
  · rw [if_pos h]
    simp [h]
  · rw [if_neg h]
    simp [h]

/-! ## C1: the symmetry invariant across all public operations -/

/-- Expand the `Φ·Cov_PhiT` double block sum into a four-fold sum. -/
theorem quad_expand (C Phi : Mtx) (olds : List Var) (a b : Nat) :
    (∑ k ∈ Finset.range olds.length, ∑ c ∈ Finset.range (vAt olds k).size,
        Phi a (offAt olds k + c) * covPhiT C Phi olds ((vAt olds k).nid + c) b)
    = ∑ k ∈ Finset.range olds.length, ∑ c ∈ Finset.range (vAt olds k).size,
      ∑ m ∈ Finset.range olds.length, ∑ e ∈ Finset.range (vAt olds m).size,
        Phi a (offAt olds k + c) * C ((vAt olds k).nid + c) ((vAt olds m).nid + e)
          * Phi b (offAt olds m + e) := by
  apply Finset.sum_congr rfl
  intro k _
  apply Finset.sum_congr rfl
  intro c _
  unfold covPhiT
  rw [Finset.mul_sum]
  apply Finset.sum_congr rfl
  intro m _
  rw [Finset.mul_sum]
  apply Finset.sum_congr rfl
  intro e _
  ring

/-- Swapping the two (variable, offset) index blocks of a four-fold block
sum. -/
theorem block_sum_swap (K : Nat) (sz : Nat → Nat) (f : Nat → Nat → Nat → Nat → ℚ) :
    (∑ k ∈ Finset.range K, ∑ c ∈ Finset.range (sz k),
       ∑ m ∈ Finset.range K, ∑ e ∈ Finset.range (sz m), f k c m e)
    = ∑ k ∈ Finset.range K, ∑ c ∈ Finset.range (sz k),
       ∑ m ∈ Finset.range K, ∑ e ∈ Finset.range (sz m), f m e k c := by
  calc (∑ k ∈ Finset.range K, ∑ c ∈ Finset.range (sz k),
       ∑ m ∈ Finset.range K, ∑ e ∈ Finset.range (sz m), f k c m e)
      = ∑ k ∈ Finset.range K, ∑ m ∈ Finset.range K,
        ∑ c ∈ Finset.range (sz k), ∑ e ∈ Finset.range (sz m), f k c m e :=
        Finset.sum_congr rfl (fun k _ => Finset.sum_comm)
    _ = ∑ m ∈ Finset.range K, ∑ k ∈ Finset.range K,
        ∑ c ∈ Finset.range (sz k), ∑ e ∈ Finset.range (sz m), f k c m e :=
        Finset.sum_comm
    _ = ∑ m ∈ Finset.range K, ∑ k ∈ Finset.range K,
        ∑ e ∈ Finset.range (sz m), ∑ c ∈ Finset.range (sz k), f k c m e :=
        Finset.sum_congr rfl (fun m _ => Finset.sum_congr rfl (fun k _ => Finset.sum_comm))
    _ = ∑ m ∈ Finset.range K, ∑ e ∈ Finset.range (sz m),
        ∑ k ∈ Finset.range K, ∑ c ∈ Finset.range (sz k), f k c m e :=
        Finset.sum_congr rfl (fun m _ => Finset.sum_comm)

/-- The quadratic block sum of `Phi_Cov_PhiT` is symmetric in its two row
indices whenever the old-order addresses are in bounds of a symmetric
covariance. -/
theorem quad_symm (C Phi : Mtx) (olds : List Var) (n : Nat)
    (hin : InBounds olds n) (hsym : SymmUpTo n C) (a b : Nat) :
    (∑ k ∈ Finset.range olds.length, ∑ c ∈ Finset.range (vAt olds k).size,
        Phi a (offAt olds k + c) * covPhiT C Phi olds ((vAt olds k).nid + c) b)
    = ∑ k ∈ Finset.range olds.length, ∑ c ∈ Finset.range (vAt olds k).size,
        Phi b (offAt olds k + c) * covPhiT C Phi olds ((vAt olds k).nid + c) a := by
  have haddr : ∀ k ∈ Finset.range olds.length, ∀ c ∈ Finset.range (vAt olds k).size,
      (vAt olds k).nid + c < n := by
    intro k hk c hc
    rw [Finset.mem_range] at hk hc
    have := hin _ (vAt_mem hk)
    omega
  rw [quad_expand, quad_expand]
  have step1 : (∑ k ∈ Finset.range olds.length, ∑ c ∈ Finset.range (vAt olds k).size,
      ∑ m ∈ Finset.range olds.length, ∑ e ∈ Finset.range (vAt olds m).size,
        Phi a (offAt olds k + c) * C ((vAt olds k).nid + c) ((vAt olds m).nid + e)
          * Phi b (offAt olds m + e))
      = ∑ k ∈ Finset.range olds.length, ∑ c ∈ Finset.range (vAt olds k).size,
        ∑ m ∈ Finset.range olds.length, ∑ e ∈ Finset.range (vAt olds m).size,
          Phi b (offAt olds m + e) * C ((vAt olds m).nid + e) ((vAt olds k).nid + c)
            * Phi a (offAt olds k + c) := by
    apply Finset.sum_congr rfl
    intro k hk
    apply Finset.sum_congr rfl
    intro c hc
    apply Finset.sum_congr rfl
    intro m hm
    apply Finset.sum_congr rfl
    intro e he
    rw [hsym _ (haddr k hk c hc) _ (haddr m hm e he)]
    ring
  rw [step1]
  exact block_sum_swap olds.length (fun k => (vAt olds k).size)
    (fun k c m e => Phi b (offAt olds m + e)
      * C ((vAt olds m).nid + e) ((vAt olds k).nid + c)
      * Phi a (offAt olds k + c))

/-- `Phi_Cov_PhiT` is symmetric although the code writes it into the diagonal
block without an explicit symmetrization: `Q` enters through
`selfadjointView<Upper>` and the sandwich inherits the symmetry of `Cov`. -/
theorem phiCovPhiT_symm (C Phi Q : Mtx) (olds : List Var) (n : Nat)
    (hin : InBounds olds n) (hsym : SymmUpTo n C) (a b : Nat) :
    phiCovPhiT C Phi Q olds a b = phiCovPhiT C Phi Q olds b a := by
  unfold phiCovPhiT
  rw [symU_symm Q a b, quad_symm C Phi olds n hin hsym a b]

/-- Symmetry of the full `EKFPropagation` write-back on the live region. -/
theorem propCov_symmUpTo (s : State) (oN oO : List Var) (Phi Q : Mtx)
    (hin : InBounds oO s.n) (hsym : SymmUpTo s.n s.Cov) :
    SymmUpTo s.n (propCov s oN oO Phi Q) := by
  intro i hi j hj
  unfold propCov writeBlock
  simp only [Nat.sub_zero]
  split_ifs <;>
    first
      | rfl
      | omega
      | exact hsym _ hi _ hj
      | exact phiCovPhiT_symm s.Cov Phi Q oO s.n hin hsym _ _

/-- Symmetry of the marginalization write-back: the `P(x2,x1)` block is the
transpose of the freshly copied `P(x1,x2)`, so deletion preserves symmetry. -/
theorem margCovNew_symmUpTo (C : Mtx) (a sz n : Nat) (ha : a + sz ≤ n)
    (hsym : SymmUpTo n C) :
    SymmUpTo (n - sz) (margCovNew C a sz (n - a - sz)) := by
  intro i hi j hj
  unfold margCovNew
  split_ifs <;>
    first
      | rfl
      | omega
      | exact hsym _ (by omega) _ (by omega)

/-- Symmetry of the covariance after `cloneAt`: every entry reads a
pre-clone entry at addresses inside the old live region. -/
theorem cloneAt_symmUpTo (s : State) (oldLoc ts : Nat) (val : List ℚ) (nk : Nat)
    (hb : oldLoc + ts ≤ s.n) (hsym : SymmUpTo s.n s.Cov) :
    SymmUpTo (s.n + ts) (cloneAt s oldLoc ts val nk).1.Cov := by
  intro i hi j hj
  rw [cloneAt_cov_spec s oldLoc ts val nk hb i hi j hj,
      cloneAt_cov_spec s oldLoc ts val nk hb j hj i hi]
  have haddr : ∀ x, x < s.n + ts → (if x < s.n then x else oldLoc + (x - s.n)) < s.n := by
    intro x hx
    by_cases h : x < s.n
    · rw [if_pos h]
      exact h
    · rw [if_neg h]
      omega
  exact hsym _ (haddr i hi) _ (haddr j hj)

/-- Symmetry of the two sequential `+=` stripe updates of `augment_clone`
under `do_calib_camera_timeoffset`: the second stripe reads the
already-updated column stripe, which exactly restores symmetry. -/
theorem augCalib_symmUpTo (C : Mtx) (N dt : Nat) (dnc : Vec)
    (hdt : dt < N + 6) (hsym : SymmUpTo (N + 6) C) :
    SymmUpTo (N + 6)
      (addBlock (addBlock C 0 N (N + 6) 6 (fun i c => C i dt * dnc c))
        N 0 6 (N + 6)
        (fun r j => dnc r * addBlock C 0 N (N + 6) 6 (fun i c => C i dt * dnc c) dt j)) := by
  intro i hi j hj
  have e1 : C j i = C i j := hsym j hj i hi
  have e2 : C j dt = C dt j := hsym j hj dt hdt
  have e3 : C dt i = C i dt := hsym dt hdt i hi
  unfold addBlock
  simp only [Nat.sub_zero]
  split_ifs <;>
    first
      | omega
      | (simp only [e1, e2, e3]; ring)
      | (simp only [e1, e2, e3])

/-- The `P_LL = H_L⁻¹ · M.selfadjointView<Upper> · H_L⁻ᵀ` block of
`initialize_invertible` is symmetric. -/
theorem pll_symm (G M : Mtx) (d : Nat) (r c : Nat) :
    (∑ a ∈ Finset.range d, ∑ b ∈ Finset.range d, G r a * symU M a b * G c b)
    = ∑ a ∈ Finset.range d, ∑ b ∈ Finset.range d, G c a * symU M a b * G r b := by
  rw [Finset.sum_comm]
  apply Finset.sum_congr rfl
  intro a _
  apply Finset.sum_congr rfl
  intro b _
  rw [symU_symm M b a]
  ring

/-- The covariance written by `EKFUpdate` is symmetric (the explicit
`selfadjointView<Upper>` reflection). -/
theorem updCov_symmUpTo (s : State) (hOrder : List Var) (H R : Mtx) (d : Nat) :
    SymmUpTo s.n (updCov s hOrder H R d) := by
  unfold updCov
  exact symU_symmUpTo _ _

/-- A successful `EKFUpdate` always leaves a symmetric covariance (the
explicit `selfadjointView<Upper>` reflection). -/
theorem EKFUpdate_ok_symm (bp : List ℚ → List ℚ → List ℚ) (s : State)
    (hOrder : List Var) (H : Mtx) (res : Vec) (R : Mtx) (d : Nat) (s' : State)
    (hok : EKFUpdate bp s hOrder H res R d = .ok s') :
    SymmUpTo s'.n s'.Cov := by
  unfold EKFUpdate at hok
  split at hok
  · exact absurd hok (by simp)
  · simp only [Except.ok.injEq] at hok
    subst hok
    exact updCov_symmUpTo s hOrder H R d

set_option maxHeartbeats 1600000 in
/-- A successful `initialize_invertible` preserves symmetry: the old block is
untouched, the row stripe is written as the transpose of the column stripe,
and `P_LL` is symmetric. -/
theorem invInit_ok_symm (bp : List ℚ → List ℚ → List ℚ) (s : State)
    (newVar : Var) (hOrder : List Var) (H_R H_L R : Mtx) (res : Vec)
    (s' : State)
    (hok : initialize_invertible bp s newVar hOrder H_R H_L R res = .ok s')
    (hsym : SymmUpTo s.n s.Cov) : SymmUpTo s'.n s'.Cov := by
  unfold initialize_invertible at hok
  split at hok
  · exact absurd hok (by simp)
  split at hok
  · exact absurd hok (by simp)
  simp only [Except.ok.injEq] at hok
  subst hok
  intro i hi j hj
  unfold writeBlock
  simp only [Nat.sub_zero]
  split_ifs <;>
    first
      | rfl
      | omega
      | exact hsym _ (by omega) _ (by omega)
      | exact pll_symm _ _ _ _ _
      | rw [Nat.add_sub_cancel_left]

/-- One successful public `StateHelper` operation, relating the state before
to the state after.  The side conditions are structural well-formedness
facts maintained by the surrounding system: variable covariance ranges lie
inside the live region, the IMU pose and the calibration time offset are
live entries. -/
inductive Step : State → State → Prop where
  | propagate (s : State) (oN oO : List Var) (Phi Q : Mtx) (s' : State)
      (hin : InBounds oO s.n)
      (hok : EKFPropagation s oN oO Phi Q = .ok s') : Step s s'
  | ekfUpdate (bp : List ℚ → List ℚ → List ℚ) (s : State) (hOrder : List Var)
      (H : Mtx) (res : Vec) (R : Mtx) (d : Nat) (s' : State)
      (hok : EKFUpdate bp s hOrder H res R d = .ok s') : Step s s'
  | setInitialCov (s : State) (covariance : Mtx) (order : List Var) :
      Step s (set_initial_covariance s covariance order)
  | cloneVar (s : State) (vkey newKey : Nat) (p : State × Var)
      (hwf : ∀ v ∈ s.vars, v.nid + v.size ≤ s.n)
      (hok : clone s vkey newKey = .ok p) : Step s p.1
  | augment (s : State) (lastW : Vec) (newKey : Nat) (s' : State)
      (hpose : s.imuPoseId + 6 ≤ s.n) (hdt : s.calibDtId < s.n)
      (hok : augment_clone s lastW newKey = .ok s') : Step s s'
  | delayedInit (sq : ℚ → ℚ) (bp : List ℚ → List ℚ → List ℚ) (chiq : Nat → ℚ)
      (s : State) (newVar : Var) (hOrder : List Var) (H_R H_L R : Mtx)
      (res : Vec) (rows : Nat) (chi2mult : ℚ) (r : InitResult)
      (hok : initializeDelayed sq bp chiq s newVar hOrder H_R H_L R res rows
        chi2mult = .ok r) : Step s r.state
  | invInit (bp : List ℚ → List ℚ → List ℚ) (s : State) (newVar : Var)
      (hOrder : List Var) (H_R H_L R : Mtx) (res : Vec) (s' : State)
      (hok : initialize_invertible bp s newVar hOrder H_R H_L R res = .ok s') :
      Step s s'
  | marginalizeVar (s : State) (margKey : Nat) (p : State × Var)
      (hwf : ∀ v ∈ s.vars, v.nid + v.size ≤ s.n)
      (hok : marginalize s margKey = .ok p) : Step s p.1

/-- C1: the symmetry invariant.  If a state has a symmetric covariance on
its live region, then after any public operation returns successfully the
resulting state's covariance is again symmetric on its live region — in
particular after `EKFPropagation`'s three-block write-back, which writes
`Phi_Cov_PhiT` into the diagonal block without an explicit symmetrization
step, and after `augment_clone`'s two sequential `+=` stripe updates under
`do_calib_camera_timeoffset`. -/
theorem claim1_symmetry_invariant (s s' : State) (hstep : Step s s')
    (hsym : SymmUpTo s.n s.Cov) : SymmUpTo s'.n s'.Cov := by
  cases hstep with
  | propagate s oN oO Phi Q s' hin hok =>
      unfold EKFPropagation at hok
      split at hok
      · exact absurd hok (by simp)
      split at hok
      · exact absurd hok (by simp)
      split at hok
      · exact absurd hok (by simp)
      simp only [Except.ok.injEq] at hok
      subst hok
      exact propCov_symmUpTo s oN oO Phi Q hin hsym
  | ekfUpdate bp s hOrder H res R d s' hok =>
      exact EKFUpdate_ok_symm bp s hOrder H res R d s' hok
  | setInitialCov s covariance order =>
      exact symU_symmUpTo _ _
  | cloneVar s vkey newKey p hwf hok =>
      unfold clone at hok
      split at hok
      · exact absurd hok (by simp)
      · rename_i v heq
        simp only [Except.ok.injEq] at hok
        subst hok
        exact cloneAt_symmUpTo s v.nid v.size v.value newKey
          (hwf v (List.mem_of_find?_eq_some heq)) hsym
  | augment s lastW newKey s' hpose hdt hok =>
      simp only [augment_clone] at hok
      split at hok
      · exact absurd hok (by simp)
      · split at hok
        · simp only [Except.ok.injEq] at hok
          subst hok
          exact augCalib_symmUpTo _ s.n s.calibDtId _ (by omega)
            (cloneAt_symmUpTo s s.imuPoseId 6 s.imuPoseVal newKey hpose hsym)
        · simp only [Except.ok.injEq] at hok
          subst hok
          exact cloneAt_symmUpTo s s.imuPoseId 6 s.imuPoseVal newKey hpose hsym
  | delayedInit sq bp chiq s newVar hOrder H_R H_L R res rows chi2mult r hok =>
      simp only [initializeDelayed] at hok
      split at hok
      · exact absurd hok (by simp)
      split at hok
      · exact absurd hok (by simp)
      split at hok
      · simp only [Except.ok.injEq] at hok
        subst hok
        exact hsym
      · split at hok
        · exact absurd hok (by simp)
        · rename_i s1 heq1
          split at hok
          · split at hok
            · exact absurd hok (by simp)
            · rename_i s2 heq2
              simp only [Except.ok.injEq] at hok
              subst hok
              exact EKFUpdate_ok_symm _ _ _ _ _ _ _ s2 heq2
          · simp only [Except.ok.injEq] at hok
            subst hok
            exact invInit_ok_symm _ _ _ _ _ _ _ _ s1 heq1 hsym
  | invInit bp s newVar hOrder H_R H_L R res s' hok =>
      exact invInit_ok_symm bp s newVar hOrder H_R H_L R res s' hok hsym
  | marginalizeVar s margKey p hwf hok =>
      unfold marginalize at hok
      split at hok
      · exact absurd hok (by simp)
      · rename_i marg heq
        simp only [Except.ok.injEq] at hok
        subst hok
        exact margCovNew_symmUpTo s.Cov marg.nid marg.size s.n
          (hwf marg (List.mem_of_find?_eq_some heq)) hsym

/-- Witness for C1: `set_initial_covariance` on a concrete one-variable
state with symmetric covariance. -/
theorem claim1_witness :
    Step exState (set_initial_covariance exState idMtx [exVar0]) ∧
    SymmUpTo exState.n exState.Cov ∧
    SymmUpTo (set_initial_covariance exState idMtx [exVar0]).n
      (set_initial_covariance exState idMtx [exVar0]).Cov :=
  ⟨Step.setInitialCov exState idMtx [exVar0], by decide,
   claim1_symmetry_invariant exState _ (Step.setInitialCov exState idMtx [exVar0])
     (by decide)⟩
